import Mathlib

/-!
mklfs, a LittleFS image builder.

A shallow embedding of `src/mklfs.c` (the memory block device, the host tree
walkers `dir_size` and `compact`, the option handling and the image finalizer
of `main`) together with the properties of the image-building pipeline.

Conventions of the embedding:

* C `int`/`long` values are mathematical integers (`Int`), unsigned quantities
  handed to the device callbacks are `Nat`; every size is taken to fit its C
  type.
* C strings are lists of characters; the `PATH_MAX` bounds passed to
  `strncpy`/`strncat` are taken not to be reached.
* The working buffer `data` is a list of bytes.
-/

namespace Mklfs

/-- One byte of memory (`uint8_t`). -/
abbrev Byte := Fin 256

/-- C string, without its terminating NUL. -/
abbrev CStr := List Char

/-! ## The memory block device (`lfs_read`, `lfs_prog`, `lfs_erase`, `lfs_sync`) -/

/-- The fields of `struct lfs_config` that `main` fills in, with the values it
stores there. -/
structure lfs_config where
  block_size : Int
  read_size : Int
  prog_size : Int
  cache_size : Int
  block_count : Int
  block_cycles : Int
  lookahead_size : Int
deriving DecidableEq

/-- Index in the buffer of the address `data + (block * c->block_size) + off`. -/
def dev_addr (c : lfs_config) (block off : Nat) : Nat :=
  block * c.block_size.toNat + off

/-- Contents of the buffer after `memcpy(data + a, src, |src|)`; a byte written
outside the buffer is not part of the result. -/
def memcpy_to (data : List Byte) (a : Nat) (src : List Byte) : List Byte :=
  (data.take a ++ src ++ data.drop (a + src.length)).take data.length

/-- The C function `lfs_read`: `memcpy(buffer, data + block*block_size + off, size);
return 0;`. The result is the return value, the bytes stored in `buffer` and the working
buffer afterwards; `none` when the copy leaves the working buffer. -/
def lfs_read (c : lfs_config) (data : List Byte) (block off size : Nat) :
    Option (Int × List Byte × List Byte) :=
  if dev_addr c block off + size ≤ data.length then
    some (0, (data.drop (dev_addr c block off)).take size, data)
  else none

/-- The C function `lfs_prog`: `memcpy(data + block*block_size + off, buffer, size);
return 0;`. The result is the return value and the working buffer afterwards; `none` when the
copy leaves the working buffer or `buffer` holds fewer than `size` bytes. -/
def lfs_prog (c : lfs_config) (data : List Byte) (block off : Nat) (buffer : List Byte)
    (size : Nat) : Option (Int × List Byte) :=
  if dev_addr c block off + size ≤ data.length ∧ size ≤ buffer.length then
    some (0, memcpy_to data (dev_addr c block off) (buffer.take size))
  else none

/-- The C function `lfs_erase`: `memset(data + block*block_size, 0, block_size);
return 0;`; `none` when the block is not inside the working buffer. -/
def lfs_erase (c : lfs_config) (data : List Byte) (block : Nat) : Option (Int × List Byte) :=
  if dev_addr c block 0 + c.block_size.toNat ≤ data.length then
    some (0, memcpy_to data (dev_addr c block 0) (List.replicate c.block_size.toNat 0))
  else none

/-- The C function `lfs_sync`: `return 0;`. -/
def lfs_sync (_c : lfs_config) (data : List Byte) : Int × List Byte := (0, data)

/-! ## The filesystem library seen from `mklfs.c`

`lfs/lfs.h` and the library behind it are not part of `src/`; the program only
calls into it. The library is a parameter of the embedding: each entry point is a
computation that may call back the four device functions registered in `cfg`. -/

/-- A library computation: it reaches the working buffer only through the device
callbacks `cfg.read`, `cfg.prog`, `cfg.erase` and `cfg.sync`, and continues with
what they return. -/
inductive Dev (α : Type) where
  | ret (a : α)
  | read (block off size : Nat) (k : Int → List Byte → Dev α)
  | prog (block off : Nat) (buffer : List Byte) (size : Nat) (k : Int → Dev α)
  | erase (block : Nat) (k : Int → Dev α)
  | sync (k : Int → Dev α)

/-- Runs a library computation against the working buffer with the callbacks of
`mklfs.c`; `none` when a callback is asked to copy outside the buffer. -/
def Dev.run {α : Type} (c : lfs_config) : Dev α → List Byte → Option (α × List Byte)
  | .ret a, data => some (a, data)
  | .read block off size k, data =>
    match lfs_read c data block off size with
    | some (r, out, data1) => (k r out).run c data1
    | none => none
  | .prog block off buffer size k, data =>
    match lfs_prog c data block off buffer size with
    | some (r, data1) => (k r).run c data1
    | none => none
  | .erase block k, data =>
    match lfs_erase c data block with
    | some (r, data1) => (k r).run c data1
    | none => none
  | .sync k, data => (k (lfs_sync c data).1).run c (lfs_sync c data).2

/-- The library entry points `mklfs.c` uses, over a library state `σ` (the
contents of `lfs` and of the open `lfs_file_t`). Each returns its C return value
and the new state. `lfs_file_open` is the call with
`LFS_O_WRONLY | LFS_O_CREAT`; `lfs_z_get_superblock s n` is the byte image of the
`lfs_superblock_t` the library fills in for block count argument `n`. -/
structure Lfs (σ : Type) where
  init : σ
  lfs_format : lfs_config → σ → Dev (Int × σ)
  lfs_mount : lfs_config → σ → Dev (Int × σ)
  lfs_mkdir : σ → CStr → Dev (Int × σ)
  lfs_file_open : σ → CStr → Dev (Int × σ)
  lfs_file_write : σ → List Byte → Dev (Int × σ)
  lfs_file_close : σ → Dev (Int × σ)
  lfs_z_get_superblock : σ → Int → List Byte

/-- How a stretch of the program stops early: `exit(status)`, or a device access
outside the working buffer. -/
inductive Stop where
  | exit (status : Int)
  | undefined
deriving DecidableEq

/-- One library call made by the populator: the call is run on the buffer and a
negative return value ends the program with `exit(1)`. -/
def lfs_call {σ : Type} (c : lfs_config) (call : Dev (Int × σ)) (data : List Byte) :
    Except Stop (σ × List Byte) :=
  match call.run c data with
  | none => .error .undefined
  | some ((ret, s), data1) => if ret < 0 then .error (.exit 1) else .ok (s, data1)

/-! ## The host directory tree -/

mutual
/-- What the host shows at a path: a regular file with its bytes, a directory with
the entries `readdir` lists for it (other than `.` and `..`), or something else
(symbolic link, device, ...). -/
inductive Node where
  | reg (content : List Byte)
  | dir (ents : Entries)
  | other
/-- The entries of a directory, in `readdir` order. -/
inductive Entries where
  | nil
  | cons (d_name : CStr) (node : Node) (rest : Entries)
end

/-- The values of `d_type` the program distinguishes. -/
inductive DType where
  | DT_DIR
  | DT_REG
  | DT_OTHER
deriving DecidableEq

/-- The `d_type` of an entry. -/
def Node.d_type : Node → DType
  | .reg _ => .DT_REG
  | .dir _ => .DT_DIR
  | .other => .DT_OTHER

/-- The bytes `fopen(path, "rb")` gives access to. -/
def Node.content : Node → List Byte
  | .reg content => content
  | _ => []

/-- The call `strchr(s, ch)`: the rest of `s` from the first `ch` on. -/
def strchr : CStr → Char → Option CStr
  | [], _ => none
  | x :: xs, ch => if x = ch then some (x :: xs) else strchr xs ch

/-- The path built in `curr_path` by `strncpy(src)`, `strncat("/")`,
`strncat(d_name)`; the bounds `PATH_MAX-strlen(curr_path)` given to the three calls
are taken to be larger than what is copied, so that nothing is cut. -/
def curr_path (src d_name : CStr) : CStr := src ++ '/' :: d_name

/-- The C function `file_size`: the length `ftell` reports at the end of the file,
when `src` contains a slash; 0 otherwise. -/
def file_size (src : CStr) (file : Node) : Int :=
  match strchr src '/' with
  | some _ => (file.content.length : Int)
  | none => 0

mutual
/-- The call `dir_size(src)`, where `opendir(src)` shows `node`. -/
def dir_size : CStr → Node → Int
  | src, .dir ents => dir_size_loop src ents 0
  | _, _ => 0
/-- The `while ((ent = readdir(dir)))` loop of `dir_size`, with the running `sz`. -/
def dir_size_loop : CStr → Entries → Int → Int
  | _, .nil, sz => sz
  | src, .cons d_name node rest, sz =>
    if d_name ≠ ['.'] ∧ d_name ≠ ['.', '.'] then
      if node.d_type = .DT_DIR then
        dir_size_loop src rest (sz + dir_size (curr_path src d_name) node)
      else if node.d_type = .DT_REG then
        dir_size_loop src rest (sz + file_size (curr_path src d_name) node)
      else dir_size_loop src rest sz
    else dir_size_loop src rest sz
end

/-! ## The populator (`create_dir`, `create_file`, `compact`) -/

/-- The C function `create_dir`: `lfs_mkdir` on the part of `src` from its first
slash on. -/
def create_dir {σ : Type} (L : Lfs σ) (c : lfs_config) (src : CStr) (st : σ × List Byte) :
    Except Stop (σ × List Byte) :=
  match strchr src '/' with
  | some path => lfs_call c (L.lfs_mkdir st.1 path) st.2
  | none => .ok st

/-- The value held by `char c` after `c = fgetc(srcf)`, as the byte that
`lfs_file_write(&lfs, &dstf, &c, 1)` reads back from `&c`. -/
def char_byte (v : Int) : Byte := Fin.ofNat (v % 256).toNat

/-- The copy loop of `create_file`: `c = fgetc(srcf); while (!feof(srcf)) { write
c; c = fgetc(srcf); }` over the bytes still unread. With no byte left `fgetc`
returns `EOF` and sets the end-of-file indicator, which ends the loop. -/
def create_file_loop {σ : Type} (L : Lfs σ) (c : lfs_config) :
    List Byte → σ × List Byte → Except Stop (σ × List Byte)
  | [], st => .ok st
  | b :: unread, st => do
    let st1 ← lfs_call c (L.lfs_file_write st.1 [char_byte (b.val : Int)]) st.2
    create_file_loop L c unread st1

/-- The C function `create_file`: open the destination at the part of `src` from
its first slash on, copy the host file byte by byte, close. -/
def create_file {σ : Type} (L : Lfs σ) (c : lfs_config) (src : CStr) (file : Node)
    (st : σ × List Byte) : Except Stop (σ × List Byte) :=
  match strchr src '/' with
  | some path => do
    let st1 ← lfs_call c (L.lfs_file_open st.1 path) st.2
    let st2 ← create_file_loop L c file.content st1
    lfs_call c (L.lfs_file_close st2.1) st2.2
  | none => .ok st

mutual
/-- The call `compact(src)`, where `opendir(src)` shows `node`. -/
def compact {σ : Type} (L : Lfs σ) (c : lfs_config) (src : CStr) :
    Node → σ × List Byte → Except Stop (σ × List Byte)
  | .dir ents, st => compact_loop L c src ents st
  | _, st => .ok st
/-- The `while ((ent = readdir(dir)))` loop of `compact`. -/
def compact_loop {σ : Type} (L : Lfs σ) (c : lfs_config) (src : CStr) :
    Entries → σ × List Byte → Except Stop (σ × List Byte)
  | .nil, st => .ok st
  | .cons d_name node rest, st =>
    if d_name ≠ ['.'] ∧ d_name ≠ ['.', '.'] then
      if node.d_type = .DT_DIR then do
        let st1 ← create_dir L c (curr_path src d_name) st
        let st2 ← compact L c (curr_path src d_name) node st1
        compact_loop L c src rest st2
      else if node.d_type = .DT_REG then do
        let st1 ← create_file L c (curr_path src d_name) node st
        compact_loop L c src rest st1
      else compact_loop L c src rest st
    else compact_loop L c src rest st
end

/-! ## Option handling (`is_number`, `is_hex`, `to_int`, the `getopt` loop) -/

/-- The C function `is_number`: 1 when every character is a decimal digit, 0
otherwise. -/
def is_number : CStr → Int
  | [] => 1
  | ch :: rest => if ch < '0' ∨ ch > '9' then 0 else is_number rest

/-- The `while (*c)` loop of `is_hex` over the characters after `0x`. -/
def is_hex_loop : CStr → Int
  | [] => 1
  | ch :: rest =>
    if (ch < '0' ∨ ch > '9') ∧ (ch < 'A' ∨ ch > 'F') ∧ (ch < 'a' ∨ ch > 'f') then 0
    else is_hex_loop rest

/-- The C function `is_hex`: 1 when the string is `0x` followed by hexadecimal
digits only. -/
def is_hex : CStr → Int
  | [] => 0
  | ch0 :: rest0 =>
    if ch0 ≠ '0' then 0
    else match rest0 with
      | [] => 0
      | ch1 :: rest1 => if ch1 ≠ 'x' then 0 else is_hex_loop rest1

/-- Value of a digit character in a base up to 16, if it is one. -/
def digit_value (ch : Char) : Option Int :=
  if '0' ≤ ch ∧ ch ≤ '9' then some ((ch.toNat : Int) - 48)
  else if 'a' ≤ ch ∧ ch ≤ 'f' then some ((ch.toNat : Int) - 87)
  else if 'A' ≤ ch ∧ ch ≤ 'F' then some ((ch.toNat : Int) - 55)
  else none

/-- The digit loop of the C library's `strtol`: the longest run of digits of the
base, accumulated from `acc`. -/
def strtol_digits (base : Int) : CStr → Int → Int
  | [], acc => acc
  | ch :: rest, acc =>
    match digit_value ch with
    | some d => if d < base then strtol_digits base rest (acc * base + d) else acc
    | none => acc

/-- The call `atoi(s)` of the C library on a string without leading blanks or
sign. -/
def atoi (s : CStr) : Int := strtol_digits 10 s 0

/-- The call `strtol(s, NULL, 16)` of the C library on a string without leading
blanks or sign: an optional `0x` prefix, then hexadecimal digits. -/
def strtol16 : CStr → Int
  | '0' :: 'x' :: ch :: rest =>
    match digit_value ch with
    | some _ => strtol_digits 16 (ch :: rest) 0
    | none => 0
  | s => strtol_digits 16 s 0

/-- The C function `to_int`: decimal or `0x` hexadecimal literal, -1 for anything
else. -/
def to_int (s : CStr) : Int :=
  if is_number s ≠ 0 then atoi s
  else if is_hex s ≠ 0 then strtol16 s
  else -1

/-- The local variables of `main` set from the command line. -/
structure Locals where
  src : Option CStr
  dst : Option CStr
  block_size : Int
  read_size : Int
  prog_size : Int
  fs_size : Int
  cache_size : Int
  lookahead_size : Int
  block_wear : Int
  shrinked : Int
deriving DecidableEq

/-- The initial values of the locals of `main`. -/
def main_locals : Locals :=
  { src := none, dst := none, block_size := 4096, read_size := 1024, prog_size := 1024,
    fs_size := 0, cache_size := 1024, lookahead_size := 16, block_wear := 1000, shrinked := 0 }

/-- The `switch (c)` of `main` for one option character returned by `getopt`,
with its `optarg`. A character without a `case` changes nothing. -/
def main_switch (l : Locals) (opt : Char × CStr) : Locals :=
  if opt.1 = 'c' then { l with src := some opt.2 }
  else if opt.1 = 'o' then { l with dst := some opt.2 }
  else if opt.1 = 'w' then { l with block_wear := to_int opt.2 }
  else if opt.1 = 'k' then { l with shrinked := to_int opt.2 }
  else if opt.1 = 'b' then { l with block_size := to_int opt.2 }
  else if opt.1 = 'p' then { l with prog_size := to_int opt.2 }
  else if opt.1 = 'r' then { l with read_size := to_int opt.2 }
  else if opt.1 = 'l' then { l with lookahead_size := to_int opt.2 }
  else if opt.1 = 's' then { l with fs_size := to_int opt.2 }
  else if opt.1 = 'h' then { l with cache_size := to_int opt.2 }
  else l

/-- The `while ((c = getopt(...)) != -1)` loop over the options `getopt` returns,
in order. -/
def main_getopt (opts : List (Char × CStr)) : Locals :=
  opts.foldl main_switch main_locals

/-- The function `basename` of the C library (`libgen.h`): the last component of a
path, `.` for the empty path and `/` for a path of slashes only. -/
def basename (path : CStr) : CStr :=
  if path = [] then ['.']
  else
    let trimmed := (path.reverse.dropWhile (fun ch => ch = '/')).reverse
    if trimmed = [] then ['/']
    else (trimmed.reverse.takeWhile (fun ch => ch ≠ '/')).reverse

/-! ## The image finalizer (the superblock search of `main`) -/

/-- The byte at `data + a`: inside the working buffer the buffer byte, past its end
the byte `beyond` holds in the memory that follows the buffer. -/
def mem_at (data : List Byte) (beyond : Nat → Byte) (a : Nat) : Byte :=
  if h : a < data.length then data[a] else beyond (a - data.length)

/-- The `n` bytes at `data + i`, which `memcmp(data+i, &sb, n)` compares. -/
def mem_window (data : List Byte) (beyond : Nat → Byte) (i n : Nat) : List Byte :=
  (List.range n).map (fun j => mem_at data beyond (i + j))

/-- The loop `for (i = 0; i < total_size; i++) if (memcmp(data+i, &sb, sizeof sb)
== 0) { ...; break; }` from offset `i` with `todo` iterations left: the offsets at
which it calls `memcmp`, and the offset at which it breaks, if it does. -/
def search_loop (data : List Byte) (beyond : Nat → Byte) (sb : List Byte) :
    Nat → Nat → List Nat × Option Nat
  | 0, _ => ([], none)
  | todo + 1, i =>
    if mem_window data beyond i sb.length = sb then ([i], some i)
    else (i :: (search_loop data beyond sb todo (i + 1)).1,
      (search_loop data beyond sb todo (i + 1)).2)

/-- The `if (!shrinked) { ... }` block of `main`: `sb` is the superblock read with
block count argument 0, `z` gives the superblock for another argument; the result
is the working buffer afterwards. -/
def main_finalize (shrinked : Int) (sb : List Byte) (z : Int → List Byte)
    (fs_size block_size total_size : Int) (data : List Byte) (beyond : Nat → Byte) :
    List Byte :=
  if shrinked = 0 then
    match (search_loop data beyond sb total_size.toNat 0).2 with
    | some i => memcpy_to data i ((z (Int.tdiv fs_size block_size)).take sb.length)
    | none => data
  else data

/-! ## `main` -/

/-- What the host gives `main`: whether `chdir` succeeds, the tree at the pack
directory, whether `calloc` and the `fopen` of the image succeed, the memory
following the working buffer, and the filesystem library. -/
structure Host (σ : Type) where
  chdir_ok : Bool
  tree : Node
  calloc_ok : Bool
  fopen_ok : Bool
  beyond : Nat → Byte
  lib : Lfs σ

/-- The actions of `main` on its surroundings. -/
inductive Event where
  | usage
  | chdir
  | scan (bname : CStr)
  | calloc (size : Int)
  | format
  | mount
  | populate (bname : CStr)
  | fopen (dst : CStr)
  | fwrite (bytes : List Byte)
  | fclose
deriving DecidableEq

/-- How `main` ends: `return v`, `exit(v)`, or a device access outside the working
buffer. -/
inductive Ending where
  | returned (v : Int)
  | exited (v : Int)
  | undefined
deriving DecidableEq

/-- The `struct lfs_config cfg` that `main` fills in. -/
def main_cfg (l : Locals) (total_size : Int) : lfs_config :=
  { block_size := l.block_size, read_size := l.read_size, prog_size := l.prog_size,
    cache_size := l.cache_size, block_count := Int.tdiv total_size l.block_size,
    block_cycles := l.block_wear, lookahead_size := l.lookahead_size }

/-- The rest of `main` from the `chdir` on, for locals that passed the argument
test. -/
def main_build {σ : Type} (h : Host σ) (l : Locals) (src dst : CStr) : List Event × Ending :=
  let bname := basename src
  if h.chdir_ok = false then ([.chdir], .returned (-1))
  else
    let total_size := dir_size bname h.tree + l.block_size * 16
    let cfg := main_cfg l total_size
    if h.calloc_ok = false then ([.chdir, .scan bname, .calloc total_size], .returned (-1))
    else
      let data0 : List Byte := List.replicate total_size.toNat 0
      match (h.lib.lfs_format cfg h.lib.init).run cfg data0 with
      | none => ([.chdir, .scan bname, .calloc total_size, .format], .undefined)
      | some ((err1, s1), data1) =>
        if err1 < 0 then ([.chdir, .scan bname, .calloc total_size, .format], .returned (-1))
        else
          match (h.lib.lfs_mount cfg s1).run cfg data1 with
          | none => ([.chdir, .scan bname, .calloc total_size, .format, .mount], .undefined)
          | some ((err2, s2), data2) =>
            if err2 < 0 then
              ([.chdir, .scan bname, .calloc total_size, .format, .mount], .returned (-1))
            else
              match compact h.lib cfg bname h.tree (s2, data2) with
              | .error (.exit v) =>
                ([.chdir, .scan bname, .calloc total_size, .format, .mount, .populate bname],
                  .exited v)
              | .error .undefined =>
                ([.chdir, .scan bname, .calloc total_size, .format, .mount, .populate bname],
                  .undefined)
              | .ok (s3, data3) =>
                if h.fopen_ok = false then
                  ([.chdir, .scan bname, .calloc total_size, .format, .mount, .populate bname,
                    .fopen dst], .returned (-1))
                else
                  let image := main_finalize l.shrinked (h.lib.lfs_z_get_superblock s3 0)
                    (h.lib.lfs_z_get_superblock s3) l.fs_size l.block_size total_size data3
                    h.beyond
                  ([.chdir, .scan bname, .calloc total_size, .format, .mount, .populate bname,
                    .fopen dst, .fwrite (image.take total_size.toNat), .fclose], .returned 0)

/-- The function `main`, given the options `getopt` returns: its actions in order
and how it ends. The first test is `src == NULL || dst == NULL || block_size <= 0 ||
prog_size <= 0 || read_size <= 0 || fs_size <= 0`, which leads to `usage();
exit(1);`. -/
def main {σ : Type} (h : Host σ) (opts : List (Char × CStr)) : List Event × Ending :=
  let l := main_getopt opts
  match l.src, l.dst with
  | some src, some dst =>
    if l.block_size ≤ 0 ∨ l.prog_size ≤ 0 ∨ l.read_size ≤ 0 ∨ l.fs_size ≤ 0 then
      ([.usage], .exited 1)
    else main_build h l src dst
  | _, _ => ([.usage], .exited 1)

/-! ## Host trees as the properties speak of them -/

/-- The names of the entries of a directory. -/
def Entries.names : Entries → List CStr
  | .nil => []
  | .cons d_name _ rest => d_name :: rest.names

/-- A name a host directory entry can have: not empty, without a slash, and
neither `.` nor `..`. -/
def legal_name (d_name : CStr) : Bool :=
  decide (d_name ≠ []) && decide ('/' ∉ d_name) && decide (d_name ≠ ['.']) &&
    decide (d_name ≠ ['.', '.'])

mutual
/-- A host tree: every entry has a legal name and no directory lists a name
twice. -/
def Node.wf : Node → Bool
  | .dir ents => ents.wf
  | _ => true
/-- The entries of a host directory, see `Node.wf`. -/
def Entries.wf : Entries → Bool
  | .nil => true
  | .cons d_name node rest =>
    legal_name d_name && decide (d_name ∉ rest.names) && node.wf && rest.wf
end

mutual
/-- The contents of the regular files reachable in a tree. -/
def Node.files : Node → List (List Byte)
  | .reg content => [content]
  | .dir ents => ents.files
  | .other => []
/-- The contents of the regular files reachable from the entries of a directory. -/
def Entries.files : Entries → List (List Byte)
  | .nil => []
  | .cons _ node rest => node.files ++ rest.files
end

/-- Sum of the byte lengths of the regular files reachable from the entries of the
pack directory; directories and other entries add nothing. -/
def estimated_content_size (ents : Entries) : Nat :=
  (ents.files.map List.length).sum

/-! ## A reference filesystem for the library interface -/

/-- Modelled from the spec: what the mounted filesystem holds at a path, a
directory or a file with its bytes; the library that stores it (`lfs_mkdir`,
`lfs_file_open`, `lfs_file_write`, `lfs_file_close`) is not under `src/`. -/
inductive FsEntry where
  | dir
  | file (content : List Byte)
deriving DecidableEq

/-- Modelled from the spec: the components of a path handed to the library, the
runs of characters between slashes (`lfs.c` is not under `src/`). -/
def split_acc : CStr → CStr → List CStr
  | [], cur => if cur = [] then [] else [cur]
  | ch :: rest, cur =>
    if ch = '/' then (if cur = [] then split_acc rest [] else cur :: split_acc rest [])
    else split_acc rest (cur ++ [ch])

/-- Modelled from the spec: the components of a library path, see `split_acc`. -/
def split_path (path : CStr) : List CStr := split_acc path []

/-- Modelled from the spec: the state of the mounted filesystem behind the library
interface (`lfs_t` and the open `lfs_file_t` of `lfs.h`, not under `src/`): the
entries created so far, by path components and in creation order, and the file open
for writing with its write position. -/
structure FsState where
  entries : List (List CStr × FsEntry)
  opened : Option (List CStr × Nat)
deriving DecidableEq

/-- Modelled from the spec: what the filesystem holds at a path; the root, the
empty path, is a directory. -/
def FsState.lookup (fs : FsState) (p : List CStr) : Option FsEntry :=
  if p = [] then some .dir else (fs.entries.find? (fun e => e.1 = p)).map Prod.snd

/-- Modelled from the spec: `create_directory(handle, path) -> error` of the
library interface (`lfs_mkdir`, not under `src/`). A path that exists is an error
(`LFS_ERR_EXIST`), and so is a parent that is not a directory (`LFS_ERR_NOENT`). -/
def fs_mkdir (fs : FsState) (path : CStr) : Int × FsState :=
  if (fs.lookup (split_path path)).isSome then (-17, fs)
  else if fs.lookup (split_path path).dropLast ≠ some .dir then (-2, fs)
  else (0, { fs with entries := fs.entries ++ [(split_path path, .dir)] })

/-- Modelled from the spec: `open_file_for_write_create(handle, path)` of the
library interface (`lfs_file_open` with `LFS_O_WRONLY | LFS_O_CREAT`, not under
`src/`): a directory cannot be opened (`LFS_ERR_ISDIR`), an existing file is opened
at position 0, a missing file is created empty when its parent is a directory
(`LFS_ERR_NOENT` otherwise). -/
def fs_file_open (fs : FsState) (path : CStr) : Int × FsState :=
  match fs.lookup (split_path path) with
  | some .dir => (-21, fs)
  | some (.file _) => (0, { fs with opened := some (split_path path, 0) })
  | none =>
    if fs.lookup (split_path path).dropLast ≠ some .dir then (-2, fs)
    else (0, { entries := fs.entries ++ [(split_path path, .file [])],
               opened := some (split_path path, 0) })

/-- Modelled from the spec: `write(file_handle, bytes)` of the library interface
(`lfs_file_write`, not under `src/`): the bytes go into the open file at the write
position, which moves past them; the return value is their number
(`LFS_ERR_BADF` without a file open for writing). -/
def fs_file_write (fs : FsState) (bytes : List Byte) : Int × FsState :=
  match fs.opened with
  | none => (-9, fs)
  | some (p, pos) =>
    match fs.lookup p with
    | some (.file content) =>
      ((bytes.length : Int),
        { entries := fs.entries.map (fun e =>
            if e.1 = p then
              (p, .file (content.take pos ++ bytes ++ content.drop (pos + bytes.length)))
            else e),
          opened := some (p, pos + bytes.length) })
    | _ => (-9, fs)

/-- Modelled from the spec: `close(file_handle)` of the library interface
(`lfs_file_close`, not under `src/`). -/
def fs_file_close (fs : FsState) : Int × FsState :=
  (0, { fs with opened := none })

/-- Modelled from the spec: the library interface over the reference filesystem;
it keeps its state outside the working buffer and declares no superblock. -/
def spec_lfs : Lfs FsState :=
  { init := { entries := [], opened := none },
    lfs_format := fun _ _ => .ret (0, { entries := [], opened := none }),
    lfs_mount := fun _ fs => .ret (0, fs),
    lfs_mkdir := fun fs path => .ret (fs_mkdir fs path),
    lfs_file_open := fun fs path => .ret (fs_file_open fs path),
    lfs_file_write := fun fs bytes => .ret (fs_file_write fs bytes),
    lfs_file_close := fun fs => .ret (fs_file_close fs),
    lfs_z_get_superblock := fun _ _ => [] }

mutual
/-- What the host tree holds at a path below a node; the empty path is the node
itself. -/
def Node.lookup : Node → List CStr → Option FsEntry
  | .reg content, [] => some (.file content)
  | .reg _, _ :: _ => none
  | .dir _, [] => some .dir
  | .dir ents, d_name :: below => ents.lookup d_name below
  | .other, _ => none
/-- What the host tree holds at a path below the entry `d_name` of a directory. -/
def Entries.lookup : Entries → CStr → List CStr → Option FsEntry
  | .nil, _, _ => none
  | .cons name node rest, d_name, below =>
    if name = d_name then node.lookup below else rest.lookup d_name below
end

/-! ## Recording the library calls -/

/-- A call into the library, with its arguments. -/
inductive Call where
  | lfs_format
  | lfs_mount
  | lfs_mkdir (path : CStr)
  | lfs_file_open (path : CStr)
  | lfs_file_write (bytes : List Byte)
  | lfs_file_close
deriving DecidableEq

/-- A library that only records the calls it receives, in order, and reports
success for each. -/
def recorder : Lfs (List Call) :=
  { init := [],
    lfs_format := fun _ calls => .ret (0, calls ++ [.lfs_format]),
    lfs_mount := fun _ calls => .ret (0, calls ++ [.lfs_mount]),
    lfs_mkdir := fun calls path => .ret (0, calls ++ [.lfs_mkdir path]),
    lfs_file_open := fun calls path => .ret (0, calls ++ [.lfs_file_open path]),
    lfs_file_write := fun calls bytes => .ret ((bytes.length : Int), calls ++ [.lfs_file_write bytes]),
    lfs_file_close := fun calls => .ret (0, calls ++ [.lfs_file_close]),
    lfs_z_get_superblock := fun _ _ => [] }

/-- The path a create-directory or file-open call names. -/
def Call.path : Call → Option CStr
  | .lfs_mkdir path => some path
  | .lfs_file_open path => some path
  | _ => none

/-- The part of a host path from its first slash on, which `create_dir` and
`create_file` hand to the library; empty without a slash. -/
def lfs_path (src : CStr) : CStr := (strchr src '/').getD []

/-- The calls `compact` makes for the entries of a directory whose library path
is `q`, when no call fails: for a directory its `lfs_mkdir` and then the calls for
what it holds, for a regular file `lfs_file_open`, one `lfs_file_write` per byte and
`lfs_file_close`. -/
def Entries.script : CStr → Entries → List Call
  | _, .nil => []
  | q, .cons d_name (.dir ents) rest =>
    if d_name ≠ ['.'] ∧ d_name ≠ ['.', '.'] then
      .lfs_mkdir (q ++ '/' :: d_name) :: (ents.script (q ++ '/' :: d_name) ++ rest.script q)
    else rest.script q
  | q, .cons d_name (.reg content) rest =>
    if d_name ≠ ['.'] ∧ d_name ≠ ['.', '.'] then
      .lfs_file_open (q ++ '/' :: d_name) ::
        (content.map (fun b => Call.lfs_file_write [b]) ++ .lfs_file_close :: rest.script q)
    else rest.script q
  | q, .cons _ .other rest => rest.script q

/-- A path lies beneath a directory when it continues the path of the directory
with a slash. -/
def beneath (dir path : CStr) : Prop := (dir ++ ['/']) <+: path

instance (dir path : CStr) : Decidable (beneath dir path) := by
  unfold beneath
  infer_instance

/-- An earlier call `x` and a later call `y` are in order when `y` does not create
a directory that the path of `x` lies beneath. -/
def in_order (x y : Call) : Prop :=
  ∀ dir path, y = .lfs_mkdir dir → x.path = some path → ¬ beneath dir path

/-- Every call of the list that names a path `dir/name` has `dir` among the
directories created before it; `created` are those present at the start. -/
def parents_first : List CStr → List Call → Prop
  | _, [] => True
  | created, x :: rest =>
    (∀ path, x.path = some path → ∀ dir name, path = dir ++ '/' :: name → '/' ∉ name →
      dir ∈ created) ∧
    parents_first (match x with
      | .lfs_mkdir dir => dir :: created
      | _ => created) rest

/-- The entries of the reference filesystem that mirror the entries of a host
directory whose path has the components `comps`: directories before what they hold,
files with their bytes, in `readdir` order; entries that are neither are left
out. -/
def Entries.listing : List CStr → Entries → List (List CStr × FsEntry)
  | _, .nil => []
  | comps, .cons d_name (.dir ents) rest =>
    (comps ++ [d_name], FsEntry.dir) ::
      (ents.listing (comps ++ [d_name]) ++ rest.listing comps)
  | comps, .cons d_name (.reg content) rest =>
    (comps ++ [d_name], FsEntry.file content) :: rest.listing comps
  | comps, .cons _ .other rest => rest.listing comps

/-! ## Sample inputs -/

/-- The pack directory of the example scenario: the file `a.txt` holding `xyz` and
the empty directory `empty`. -/
def example_ents : Entries :=
  .cons "a.txt".toList (.reg [120, 121, 122]) (.cons "empty".toList (.dir .nil) .nil)

/-- A pack directory with a file holding the bytes 0xFF and 0x00, an empty file, a
directory with a file and a symbolic link in it, and an empty directory. -/
def sample_ents : Entries :=
  .cons "blob".toList (.reg [255, 0, 255])
    (.cons "none".toList (.reg [])
      (.cons "sub".toList
        (.dir (.cons "in".toList (.reg [7]) (.cons "link".toList .other .nil)))
        (.cons "empty".toList (.dir .nil) .nil)))

/-- A host on which every step succeeds, with the recording library and zero bytes
after the working buffer. -/
def recording_host (ents : Entries) : Host (List Call) :=
  { chdir_ok := true, tree := .dir ents, calloc_ok := true, fopen_ok := true,
    beyond := fun _ => 0, lib := recorder }

/-- The options of the example scenario: pack directory `/data`, block size 4096,
filesystem size 65536, image `image.bin`. -/
def example_opts : List (Char × CStr) :=
  [('c', "/data".toList), ('b', "4096".toList), ('s', "65536".toList),
    ('o', "image.bin".toList)]

/-- Options with a cache size and a lookahead size of 0 and every other size
positive. -/
def zero_cache_opts : List (Char × CStr) :=
  [('c', "/data".toList), ('o', "image.bin".toList), ('s', "65536".toList),
    ('h', "0".toList), ('l', "0".toList)]

/-- A superblock image of 24 bytes for the samples, six little-endian 32-bit
fields: version 2.0, block size 2, the block count, and the limits 255, 2147483647
and 1022. -/
def sample_superblock (block_count : Int) : List Byte :=
  [0, 0, 2, 0, 2, 0, 0, 0, Fin.ofNat block_count.toNat, 0, 0, 0,
    255, 0, 0, 0, 255, 255, 255, 127, 254, 3, 0, 0]

/-- The superblock accessor of the samples for a working block count of 16: argument
0 gives the superblock with the working block count. -/
def sample_z (n : Int) : List Byte :=
  if n = 0 then sample_superblock 16 else sample_superblock n

/-- A working buffer of 32 bytes (block size 2, empty pack directory) that ends
with the first 16 bytes of the sample superblock. -/
def tail_buffer : List Byte :=
  List.replicate 16 0 ++ (sample_superblock 16).take 16

/-- Memory after `tail_buffer` that starts with the last 8 bytes of the sample
superblock. -/
def tail_beyond (a : Nat) : Byte :=
  ((sample_superblock 16).drop 16).getD a 0

/-! ## Facts about `memcpy_to` -/

theorem memcpy_to_length (data : List Byte) (a : Nat) (src : List Byte) :
    (memcpy_to data a src).length = data.length := by
  unfold memcpy_to
  simp only [List.length_take, List.length_append, List.length_drop]
  omega

theorem memcpy_to_inside (data : List Byte) (a : Nat) (src : List Byte) (j : Nat)
    (hj : j < src.length) (hin : a + j < data.length) :
    (memcpy_to data a src)[a + j]? = src[j]? := by
  unfold memcpy_to
  have ha : (data.take a).length = a := by
    rw [List.length_take]; omega
  rw [List.getElem?_take, if_pos hin, List.append_assoc, List.getElem?_append_right (by omega),
    ha, List.getElem?_append_left (by omega)]
  congr 1
  omega

theorem memcpy_to_outside (data : List Byte) (a : Nat) (src : List Byte) (k : Nat)
    (hk : k < a ∨ a + src.length ≤ k) : (memcpy_to data a src)[k]? = data[k]? := by
  unfold memcpy_to
  by_cases hlen : k < data.length
  · rw [List.getElem?_take, if_pos hlen]
    rcases hk with hk | hk
    · have ha : k < (data.take a).length := by
        rw [List.length_take]; omega
      rw [List.append_assoc, List.getElem?_append_left ha, List.getElem?_take, if_pos hk]
    · have ha : (data.take a ++ src).length = a + src.length := by
        rw [List.length_append, List.length_take]; omega
      rw [List.getElem?_append_right (by omega), ha, List.getElem?_drop]
      congr 1
      omega
  · rw [List.getElem?_take, if_neg hlen, List.getElem?_eq_none (by omega)]

theorem memcpy_to_window (data : List Byte) (a : Nat) (src : List Byte)
    (hin : a + src.length ≤ data.length) :
    ((memcpy_to data a src).drop a).take src.length = src := by
  apply List.ext_getElem?
  intro j
  by_cases hj : j < src.length
  · rw [List.getElem?_take, if_pos hj, List.getElem?_drop]
    exact memcpy_to_inside data a src j hj (by omega)
  · rw [List.getElem?_take, if_neg hj, List.getElem?_eq_none (by omega)]


/-! ## The block device -/

theorem lfs_read_eq (c : lfs_config) (data : List Byte) (block off size : Nat)
    (hin : dev_addr c block off + size ≤ data.length) :
    lfs_read c data block off size =
      some (0, (data.drop (dev_addr c block off)).take size, data) := by
  unfold lfs_read
  rw [if_pos hin]

theorem lfs_prog_eq (c : lfs_config) (data : List Byte) (block off : Nat)
    (buffer : List Byte) (size : Nat) (hin : dev_addr c block off + size ≤ data.length)
    (hbuf : size ≤ buffer.length) :
    lfs_prog c data block off buffer size =
      some (0, memcpy_to data (dev_addr c block off) (buffer.take size)) := by
  unfold lfs_prog
  rw [if_pos ⟨hin, hbuf⟩]

theorem lfs_erase_eq (c : lfs_config) (data : List Byte) (block : Nat)
    (hblk : dev_addr c block 0 + c.block_size.toNat ≤ data.length) :
    lfs_erase c data block =
      some (0, memcpy_to data (dev_addr c block 0) (List.replicate c.block_size.toNat 0)) := by
  unfold lfs_erase
  rw [if_pos hblk]

/-- C6: the memory block device is a flat byte array addressed by
`block * block_size + off`. For an access inside the working buffer, `lfs_read`
returns 0 and exactly the `size` bytes at that address and leaves the buffer as it
was; `lfs_prog` returns 0, puts the first `size` bytes of `buffer` at that address
and changes no other byte, so that reading the same place back gives the programmed
bytes; `lfs_erase` returns 0, zeroes the `block_size` bytes of the block and changes
no other byte; `lfs_sync` returns 0 and leaves the buffer as it was. -/
theorem C6_block_device (c : lfs_config) (data : List Byte) (block off size : Nat)
    (buffer : List Byte)
    (hin : block * c.block_size.toNat + off + size ≤ data.length)
    (hbuf : size ≤ buffer.length)
    (hblk : block * c.block_size.toNat + c.block_size.toNat ≤ data.length) :
    (∃ out, lfs_read c data block off size = some (0, out, data) ∧ out.length = size ∧
      ∀ j, j < size → out[j]? = data[block * c.block_size.toNat + off + j]?) ∧
    (∃ data1, lfs_prog c data block off buffer size = some (0, data1) ∧
      data1.length = data.length ∧
      (∀ j, j < size → data1[block * c.block_size.toNat + off + j]? = buffer[j]?) ∧
      (∀ k, k < block * c.block_size.toNat + off ∨
          block * c.block_size.toNat + off + size ≤ k → data1[k]? = data[k]?) ∧
      lfs_read c data1 block off size = some (0, buffer.take size, data1)) ∧
    (∃ data1, lfs_erase c data block = some (0, data1) ∧ data1.length = data.length ∧
      (∀ k, block * c.block_size.toNat ≤ k →
          k < block * c.block_size.toNat + c.block_size.toNat → data1[k]? = some 0) ∧
      (∀ k, k < block * c.block_size.toNat ∨
          block * c.block_size.toNat + c.block_size.toNat ≤ k → data1[k]? = data[k]?)) ∧
    lfs_sync c data = (0, data) := by
  have htake : (buffer.take size).length = size := by
    rw [List.length_take]; omega
  refine ⟨?_, ?_, ?_, rfl⟩
  · refine ⟨_, lfs_read_eq c data block off size hin, ?_, ?_⟩
    · rw [List.length_take, List.length_drop]
      unfold dev_addr
      omega
    · intro j hj
      rw [List.getElem?_take, if_pos hj, List.getElem?_drop]
      rfl
  · refine ⟨_, lfs_prog_eq c data block off buffer size hin hbuf, ?_, ?_, ?_, ?_⟩
    · exact memcpy_to_length _ _ _
    · intro j hj
      have h1 := memcpy_to_inside data (dev_addr c block off) (buffer.take size) j
        (by omega) (by unfold dev_addr; omega)
      rw [List.getElem?_take, if_pos hj] at h1
      exact h1
    · intro k hk
      exact memcpy_to_outside data (dev_addr c block off) (buffer.take size) k
        (by rw [htake]; exact hk)
    · rw [lfs_read_eq c _ block off size (by rw [memcpy_to_length]; exact hin)]
      have h1 := memcpy_to_window data (dev_addr c block off) (buffer.take size)
        (by rw [htake]; exact hin)
      rw [htake] at h1
      rw [h1]
  · refine ⟨_, lfs_erase_eq c data block hblk, ?_, ?_, ?_⟩
    · exact memcpy_to_length _ _ _
    · intro k hk1 hk2
      have h1 := memcpy_to_inside data (dev_addr c block 0)
        (List.replicate c.block_size.toNat 0) (k - block * c.block_size.toNat)
        (by rw [List.length_replicate]; omega) (by unfold dev_addr; omega)
      have h2 : dev_addr c block 0 + (k - block * c.block_size.toNat) = k := by
        unfold dev_addr; omega
      rw [h2, List.getElem?_replicate, if_pos (by omega)] at h1
      exact h1
    · intro k hk
      exact memcpy_to_outside data (dev_addr c block 0) _ k
        (by rw [List.length_replicate]; unfold dev_addr; omega)

/-- C6 at a buffer of two blocks of four bytes: block 1, offset 1, two bytes. -/
theorem C6_block_device_witness :
    (∃ out, lfs_read (main_cfg { main_locals with block_size := 4 } 8) [1, 2, 3, 4, 5, 6, 7, 8]
        1 1 2 = some (0, out, [1, 2, 3, 4, 5, 6, 7, 8]) ∧ out.length = 2 ∧
      ∀ j, j < 2 → out[j]? = ([1, 2, 3, 4, 5, 6, 7, 8] : List Byte)[1 * 4 + 1 + j]?) ∧
    lfs_prog (main_cfg { main_locals with block_size := 4 } 8) [1, 2, 3, 4, 5, 6, 7, 8]
      1 1 [200, 255] 2 = some (0, [1, 2, 3, 4, 5, 200, 255, 8]) ∧
    lfs_erase (main_cfg { main_locals with block_size := 4 } 8) [1, 2, 3, 4, 5, 6, 7, 8] 1 =
      some (0, [1, 2, 3, 4, 0, 0, 0, 0]) :=
  ⟨(C6_block_device (main_cfg { main_locals with block_size := 4 } 8)
      [1, 2, 3, 4, 5, 6, 7, 8] 1 1 2 [200, 255] (by decide) (by decide) (by decide)).1,
    by decide, by decide⟩

/-- C9: with the configuration `main` builds (`block_count = total_size /
block_size`, a buffer of `total_size` bytes, `block_size > 0`), an access with
`block < block_count` and `off + size <= block_size` stays inside the working
buffer: `block*block_size + off + size <= total_size`, so `lfs_read` and `lfs_prog`
are defined there; erasing a block below `block_count` stays inside as well. -/
theorem C9_accesses_inside_buffer (l : Locals) (total_size : Int) (data : List Byte)
    (block off size : Nat) (hbs : 0 < l.block_size)
    (hlen : (data.length : Int) = total_size)
    (hblock : (block : Int) < (main_cfg l total_size).block_count)
    (hoff : ((off + size : Nat) : Int) ≤ l.block_size) :
    (main_cfg l total_size).block_count = total_size / l.block_size ∧
    (block : Int) * l.block_size + off + size ≤ total_size ∧
    dev_addr (main_cfg l total_size) block off + size ≤ data.length ∧
    (lfs_read (main_cfg l total_size) data block off size).isSome = true ∧
    (∀ buffer : List Byte, size ≤ buffer.length →
      (lfs_prog (main_cfg l total_size) data block off buffer size).isSome = true) ∧
    dev_addr (main_cfg l total_size) block 0 + l.block_size.toNat ≤ data.length ∧
    (lfs_erase (main_cfg l total_size) data block).isSome = true := by
  have htot : 0 ≤ total_size := by omega
  have hcount : (main_cfg l total_size).block_count = total_size / l.block_size := by
    show Int.tdiv total_size l.block_size = _
    exact Int.tdiv_eq_ediv htot (le_of_lt hbs)
  rw [hcount] at hblock
  have h1 : ((block : Int) + 1) * l.block_size ≤ total_size :=
    (Int.le_ediv_iff_mul_le hbs).mp (by omega)
  have h2 : ((block : Int) + 1) * l.block_size = (block : Int) * l.block_size + l.block_size := by
    ring
  have hbsn : ((l.block_size.toNat : Nat) : Int) = l.block_size := Int.toNat_of_nonneg (le_of_lt hbs)
  have h3 : ((block * l.block_size.toNat : Nat) : Int) = (block : Int) * l.block_size := by
    push_cast
    rw [hbsn]
  have hcfg : (main_cfg l total_size).block_size = l.block_size := rfl
  have hin : dev_addr (main_cfg l total_size) block off + size ≤ data.length := by
    unfold dev_addr
    rw [hcfg]
    omega
  have hblk : dev_addr (main_cfg l total_size) block 0 + l.block_size.toNat ≤ data.length := by
    unfold dev_addr
    rw [hcfg]
    omega
  refine ⟨hcount, by omega, hin, ?_, ?_, hblk, ?_⟩
  · rw [lfs_read_eq _ _ _ _ _ hin]; rfl
  · intro buffer hb
    rw [lfs_prog_eq _ _ _ _ _ _ hin hb]; rfl
  · rw [lfs_erase_eq _ _ _ hblk]; rfl

/-- C9 at a buffer of 11 bytes with `block_size` 4: two blocks, and the last
bytes of block 1 are inside the buffer. -/
theorem C9_accesses_inside_buffer_witness :
    (main_cfg { main_locals with block_size := 4 } 11).block_count = 11 / 4 ∧
    ((1 : Nat) : Int) * 4 + (2 : Nat) + (2 : Nat) ≤ 11 :=
  ⟨(C9_accesses_inside_buffer { main_locals with block_size := 4 } 11
      [0, 0, 0, 0, 0, 0, 0, 0, 0, 0, 0] 1 2 2 (by decide) (by decide) (by decide)
      (by decide)).1,
   (C9_accesses_inside_buffer { main_locals with block_size := 4 } 11
      [0, 0, 0, 0, 0, 0, 0, 0, 0, 0, 0] 1 2 2 (by decide) (by decide) (by decide)
      (by decide)).2.1⟩


/-! ## The image finalizer -/

theorem mem_at_inside (data : List Byte) (beyond : Nat → Byte) (a : Nat)
    (h : a < data.length) : some (mem_at data beyond a) = data[a]? := by
  unfold mem_at
  rw [dif_pos h, List.getElem?_eq_getElem h]

theorem mem_window_inside (data : List Byte) (beyond : Nat → Byte) (i n : Nat)
    (h : i + n ≤ data.length) : mem_window data beyond i n = (data.drop i).take n := by
  apply List.ext_getElem?
  intro j
  unfold mem_window
  by_cases hj : j < n
  · rw [List.getElem?_map, List.getElem?_range hj, List.getElem?_take, if_pos hj,
      List.getElem?_drop]
    exact mem_at_inside data beyond (i + j) (by omega)
  · rw [List.getElem?_eq_none (by simp; omega), List.getElem?_eq_none]
    rw [List.length_take]
    omega

/-- What the search loop returns: a break offset is the first offset from `i` on
whose window equals `sb`, and without a break no offset of the range matches. -/
theorem search_loop_found (data : List Byte) (beyond : Nat → Byte) (sb : List Byte) :
    ∀ (todo i : Nat),
      (∀ k, (search_loop data beyond sb todo i).2 = some k →
        i ≤ k ∧ k < i + todo ∧ mem_window data beyond k sb.length = sb ∧
        ∀ j, i ≤ j → j < k → mem_window data beyond j sb.length ≠ sb) ∧
      ((search_loop data beyond sb todo i).2 = none →
        ∀ j, i ≤ j → j < i + todo → mem_window data beyond j sb.length ≠ sb) := by
  intro todo
  induction todo with
  | zero =>
    intro i
    constructor
    · intro k hk
      simp [search_loop] at hk
    · intro _ j h1 h2
      omega
  | succ todo ih =>
    intro i
    by_cases hw : mem_window data beyond i sb.length = sb
    · constructor
      · intro k hk
        simp only [search_loop, if_pos hw, Option.some.injEq] at hk
        subst hk
        exact ⟨le_refl _, by omega, hw, fun j h1 h2 => by omega⟩
      · intro hn
        simp [search_loop, if_pos hw] at hn
    · obtain ⟨ih1, ih2⟩ := ih (i + 1)
      constructor
      · intro k hk
        simp only [search_loop, if_neg hw] at hk
        obtain ⟨h1, h2, h3, h4⟩ := ih1 k hk
        refine ⟨by omega, by omega, h3, ?_⟩
        intro j hj1 hj2
        by_cases hji : j = i
        · subst hji; exact hw
        · exact h4 j (by omega) hj2
      · intro hn j hj1 hj2
        simp only [search_loop, if_neg hw] at hn
        by_cases hji : j = i
        · subst hji; exact hw
        · exact ih2 hn j (by omega) (by omega)

/-- The offsets at which the search loop calls `memcmp`: every offset from `i` up
to the break offset, or every offset of the range when it does not break. -/
theorem search_loop_compared (data : List Byte) (beyond : Nat → Byte) (sb : List Byte) :
    ∀ (todo i j : Nat), j ∈ (search_loop data beyond sb todo i).1 ↔
      i ≤ j ∧ j < i + todo ∧
        ∀ k, (search_loop data beyond sb todo i).2 = some k → j ≤ k := by
  intro todo
  induction todo with
  | zero =>
    intro i j
    simp [search_loop]
  | succ todo ih =>
    intro i j
    by_cases hw : mem_window data beyond i sb.length = sb
    · simp only [search_loop, if_pos hw, List.mem_singleton, Option.some.injEq]
      constructor
      · intro h
        subst h
        exact ⟨le_refl _, by omega, fun k hk => by omega⟩
      · intro ⟨h1, _, h3⟩
        have := h3 i rfl
        omega
    · simp only [search_loop, if_neg hw, List.mem_cons, ih (i + 1) j]
      constructor
      · intro h
        rcases h with h | ⟨h1, h2, h3⟩
        · subst h
          refine ⟨le_refl _, by omega, ?_⟩
          intro k hk
          have := ((search_loop_found data beyond sb todo (j + 1)).1 k hk).1
          omega
        · exact ⟨by omega, by omega, h3⟩
      · intro ⟨h1, h2, h3⟩
        by_cases hji : j = i
        · exact Or.inl hji
        · exact Or.inr ⟨by omega, by omega, h3⟩

/-- The search breaks at the smallest offset at which the pattern occurs inside
the buffer. -/
theorem search_loop_first (data : List Byte) (beyond : Nat → Byte) (sb : List Byte) (k : Nat)
    (hin : k + sb.length ≤ data.length) (hocc : (data.drop k).take sb.length = sb)
    (hfirst : ∀ j, j < k → (data.drop j).take sb.length ≠ sb) :
    (search_loop data beyond sb data.length 0).2 = some k ∨
      (sb = [] ∧ data = []) := by
  by_cases hk : k < data.length
  · left
    obtain ⟨h1, h2⟩ := search_loop_found data beyond sb data.length 0
    cases hres : (search_loop data beyond sb data.length 0).2 with
    | none =>
      exfalso
      apply h2 hres k (Nat.zero_le _) (by omega)
      rw [mem_window_inside data beyond k sb.length hin]
      exact hocc
    | some m =>
      obtain ⟨_, _, hm3, hm4⟩ := h1 m hres
      rcases Nat.lt_trichotomy m k with hlt | heq | hgt
      · exfalso
        apply hfirst m hlt
        rw [← mem_window_inside data beyond m sb.length (by omega)]
        exact hm3
      · rw [heq]
      · exfalso
        apply hm4 k (Nat.zero_le _) hgt
        rw [mem_window_inside data beyond k sb.length hin]
        exact hocc
  · right
    have hsb : sb.length = 0 := by omega
    have hk0 : data.length = 0 ∨ 0 < data.length := by omega
    rcases hk0 with h0 | hpos
    · exact ⟨List.length_eq_zero.mp hsb, List.length_eq_zero.mp h0⟩
    · exfalso
      have hz : sb = [] := List.length_eq_zero.mp hsb
      apply hfirst 0 (by omega)
      rw [hz]
      simp


/-- The finalizer keeps the length of the buffer, changes nothing with a non-zero
shrink flag or when the search does not break, and otherwise changes no byte outside
the `sizeof(lfs_superblock_t)` bytes at the break offset. -/
theorem main_finalize_frame (shrinked : Int) (sb : List Byte) (z : Int → List Byte)
    (fs_size block_size total_size : Int) (data : List Byte) (beyond : Nat → Byte) :
    (main_finalize shrinked sb z fs_size block_size total_size data beyond).length =
      data.length ∧
    (shrinked ≠ 0 →
      main_finalize shrinked sb z fs_size block_size total_size data beyond = data) ∧
    ((search_loop data beyond sb total_size.toNat 0).2 = none →
      main_finalize shrinked sb z fs_size block_size total_size data beyond = data) ∧
    (∀ i, (search_loop data beyond sb total_size.toNat 0).2 = some i →
      ∀ k, k < i ∨ i + sb.length ≤ k →
        (main_finalize shrinked sb z fs_size block_size total_size data beyond)[k]? =
          data[k]?) := by
  unfold main_finalize
  by_cases hs : shrinked = 0
  · rw [if_pos hs]
    cases hres : (search_loop data beyond sb total_size.toNat 0).2 with
    | none => simp
    | some i =>
      refine ⟨memcpy_to_length _ _ _, fun h => absurd hs h, fun h => by simp at h, ?_⟩
      intro i1 hi1 k hk
      simp only [Option.some.injEq] at hi1
      subst hi1
      apply memcpy_to_outside
      rw [List.length_take]
      omega
  · rw [if_neg hs]
    simp

/-- When the pattern occurs neither inside the buffer nor in a window that runs
past its end, the finalizer leaves the buffer as it was. -/
theorem main_finalize_no_match (shrinked : Int) (sb : List Byte) (z : Int → List Byte)
    (fs_size block_size : Int) (data : List Byte) (beyond : Nat → Byte)
    (hno : ∀ i, i < data.length → mem_window data beyond i sb.length ≠ sb) :
    main_finalize shrinked sb z fs_size block_size data.length data beyond = data := by
  apply (main_finalize_frame shrinked sb z fs_size block_size data.length data beyond).2.2.1
  cases hres : (search_loop data beyond sb (data.length : Int).toNat 0).2 with
  | none => rfl
  | some k =>
    exfalso
    obtain ⟨_, h2, h3, _⟩ := (search_loop_found data beyond sb _ 0).1 k hres
    exact hno k (by simpa using h2) h3

/-- C3: with the shrink flag zero, when the superblock pattern `sb` read for the
working block count occurs in the working buffer, the `sizeof(lfs_superblock_t)`
bytes at the smallest offset where it occurs are, after finalization, the bytes of
the superblock computed for a block count of `fs_size / block_size` (C integer
division, which rounds down for the positive sizes `main` lets through). -/
theorem C3_superblock_declares_requested_count (sb : List Byte) (z : Int → List Byte)
    (fs_size block_size : Int) (data : List Byte) (beyond : Nat → Byte) (k : Nat)
    (hsize : (z (Int.tdiv fs_size block_size)).length = sb.length)
    (hin : k + sb.length ≤ data.length)
    (hocc : (data.drop k).take sb.length = sb)
    (hfirst : ∀ j, j < k → (data.drop j).take sb.length ≠ sb) :
    ((main_finalize 0 sb z fs_size block_size data.length data beyond).drop k).take
        sb.length = z (Int.tdiv fs_size block_size) ∧
    (0 < fs_size → 0 < block_size → Int.tdiv fs_size block_size = fs_size / block_size) := by
  constructor
  · rcases search_loop_first data beyond sb k hin hocc hfirst with hres | ⟨hsb, hdata⟩
    · have hnat : ((data.length : Int)).toNat = data.length := Int.toNat_natCast _
      unfold main_finalize
      rw [if_pos rfl, hnat, hres]
      have htake : (z (Int.tdiv fs_size block_size)).take sb.length =
          z (Int.tdiv fs_size block_size) := by
        rw [← hsize]; exact List.take_length _
      simp only [htake]
      have hw := memcpy_to_window data k (z (Int.tdiv fs_size block_size))
        (by rw [hsize]; exact hin)
      rw [hsize] at hw
      exact hw
    · rw [hsb] at hsize ⊢
      rw [List.length_nil] at hsize
      rw [List.length_nil, List.take_zero]
      exact (List.length_eq_zero.mp hsize).symm
  · intro h1 h2
    exact Int.tdiv_eq_ediv (le_of_lt h1) (le_of_lt h2)

/-- C3 on a buffer in which the pattern `[1, 2]` occurs at offsets 1 and 3: the
bytes at offset 1 become the superblock for 8 / 2 = 4 blocks. -/
theorem C3_superblock_declares_requested_count_witness :
    (([0, 1, 2, 1, 2] : List Byte).drop 1).take 2 = [1, 2] ∧
    ((main_finalize 0 [1, 2] (fun n => [9, Fin.ofNat n.toNat]) 8 2 5 [0, 1, 2, 1, 2]
        (fun _ => 0)).drop 1).take 2 = [9, 4] :=
  ⟨by decide,
    (C3_superblock_declares_requested_count [1, 2] (fun n => [9, Fin.ofNat n.toNat]) 8 2
      [0, 1, 2, 1, 2] (fun _ => 0) 1 (by decide) (by decide) (by decide)
      (by decide)).1⟩

/-- C4, the failing input: shrink flag 0, block size 2, requested filesystem size
16, a working buffer of 32 bytes that ends with the first 16 bytes of the superblock
pattern, and the last 8 bytes of the pattern in the memory after the buffer. The
pattern, of 24 bytes, does not occur in the buffer; the search compares the window
at offset 16, which runs 8 bytes past the end of the buffer, finds it equal and the
copy changes the block count byte at offset 24 of the buffer from 16 to 8. -/
theorem C4_window_past_end_is_patched :
    (sample_superblock 16).length = 24 ∧ tail_buffer.length = 32 ∧
    (∀ k, k + 24 ≤ 32 → (tail_buffer.drop k).take 24 ≠ sample_superblock 16) ∧
    main_finalize 0 (sample_z 0) sample_z 16 2 32 tail_buffer tail_beyond =
      List.replicate 16 0 ++ (sample_superblock 8).take 16 ∧
    main_finalize 0 (sample_z 0) sample_z 16 2 32 tail_buffer tail_beyond ≠ tail_buffer := by
  refine ⟨by decide, by decide, ?_, by decide, by decide⟩
  intro k hk
  have h : k = 0 ∨ k = 1 ∨ k = 2 ∨ k = 3 ∨ k = 4 ∨ k = 5 ∨ k = 6 ∨ k = 7 ∨ k = 8 := by omega
  rcases h with h | h | h | h | h | h | h | h | h <;> subst h <;> decide

/-- C10, the failing input: on a working buffer of 32 zero bytes (block size 2,
empty pack directory) with the 24-byte superblock pattern, which does not occur in
it, the search compares at every offset from 0 to 31; from offset 9 on the window
of 24 bytes ends past the 32 bytes of the buffer. -/
theorem C10_search_compares_past_end :
    (search_loop (List.replicate 32 0) (fun _ => 0) (sample_superblock 16) 32 0).1 =
      List.range 32 ∧
    (search_loop (List.replicate 32 0) (fun _ => 0) (sample_superblock 16) 32 0).2 = none ∧
    9 ∈ (search_loop (List.replicate 32 0) (fun _ => 0) (sample_superblock 16) 32 0).1 ∧
    ¬ (9 + (sample_superblock 16).length ≤ (List.replicate 32 (0 : Byte)).length) := by
  decide

/-- Without a match the search compares at every offset below `total_size`, the
last of which has a window that ends `sizeof(lfs_superblock_t) - 1` bytes past the
buffer. -/
theorem search_loop_no_match_compares_all (data : List Byte) (beyond : Nat → Byte)
    (sb : List Byte) (hno : (search_loop data beyond sb data.length 0).2 = none)
    (hpos : 0 < data.length) (hsb : 2 ≤ sb.length) :
    data.length - 1 ∈ (search_loop data beyond sb data.length 0).1 ∧
    data.length < data.length - 1 + sb.length := by
  constructor
  · rw [search_loop_compared]
    refine ⟨Nat.zero_le _, by omega, ?_⟩
    intro k hk
    rw [hno] at hk
    cases hk
  · omega


/-! ## The working buffer keeps its length -/

theorem Dev.run_length {α : Type} (c : lfs_config) :
    ∀ (p : Dev α) (data : List Byte) (r : α) (data1 : List Byte),
      p.run c data = some (r, data1) → data1.length = data.length := by
  intro p
  induction p with
  | ret a =>
    intro data r data1 h
    simp only [Dev.run, Option.some.injEq, Prod.mk.injEq] at h
    rw [← h.2]
  | read block off size k ih =>
    intro data r data1 h
    unfold Dev.run lfs_read at h
    split at h
    · rename_i r0 out d0 heq
      split at heq
      · simp only [Option.some.injEq, Prod.mk.injEq] at heq
        rw [ih r0 out d0 r data1 h, ← heq.2.2]
      · cases heq
    · cases h
  | prog block off buffer size k ih =>
    intro data r data1 h
    unfold Dev.run lfs_prog at h
    split at h
    · rename_i r0 d0 heq
      split at heq
      · simp only [Option.some.injEq, Prod.mk.injEq] at heq
        rw [ih r0 d0 r data1 h, ← heq.2, memcpy_to_length]
      · cases heq
    · cases h
  | erase block k ih =>
    intro data r data1 h
    unfold Dev.run lfs_erase at h
    split at h
    · rename_i r0 d0 heq
      split at heq
      · simp only [Option.some.injEq, Prod.mk.injEq] at heq
        rw [ih r0 d0 r data1 h, ← heq.2, memcpy_to_length]
      · cases heq
    · cases h
  | sync k ih =>
    intro data r data1 h
    unfold Dev.run at h
    exact ih _ _ r data1 h

theorem lfs_call_length {σ : Type} (c : lfs_config) (call : Dev (Int × σ))
    (data : List Byte) (s : σ) (data1 : List Byte)
    (h : lfs_call c call data = .ok (s, data1)) : data1.length = data.length := by
  unfold lfs_call at h
  split at h
  · cases h
  · rename_i ret s0 d0 heq
    split at h
    · cases h
    · simp only [Except.ok.injEq, Prod.mk.injEq] at h
      rw [← h.2]
      exact Dev.run_length c call data _ d0 heq

theorem create_dir_length {σ : Type} (L : Lfs σ) (c : lfs_config) (src : CStr)
    (st st1 : σ × List Byte) (h : create_dir L c src st = .ok st1) :
    st1.2.length = st.2.length := by
  unfold create_dir at h
  split at h
  · exact lfs_call_length c _ _ st1.1 st1.2 h
  · simp only [Except.ok.injEq] at h
    rw [h]

theorem bind_ok {ε α β : Type} (x : Except ε α) (f : α → Except ε β) (b : β)
    (h : (x >>= f) = .ok b) : ∃ a, x = .ok a ∧ f a = .ok b := by
  cases x with
  | error e => cases h
  | ok a => exact ⟨a, rfl, h⟩

theorem create_file_loop_length {σ : Type} (L : Lfs σ) (c : lfs_config) :
    ∀ (unread : List Byte) (st st1 : σ × List Byte),
      create_file_loop L c unread st = .ok st1 → st1.2.length = st.2.length := by
  intro unread
  induction unread with
  | nil =>
    intro st st1 h
    simp only [create_file_loop, Except.ok.injEq] at h
    rw [h]
  | cons b unread ih =>
    intro st st1 h
    simp only [create_file_loop] at h
    obtain ⟨a, h1, h2⟩ := bind_ok _ _ _ h
    rw [ih a st1 h2]
    exact lfs_call_length c _ _ a.1 a.2 h1

theorem create_file_length {σ : Type} (L : Lfs σ) (c : lfs_config) (src : CStr)
    (file : Node) (st st1 : σ × List Byte) (h : create_file L c src file st = .ok st1) :
    st1.2.length = st.2.length := by
  unfold create_file at h
  split at h
  · obtain ⟨a, h1, h2⟩ := bind_ok _ _ _ h
    obtain ⟨b, h3, h4⟩ := bind_ok _ _ _ h2
    rw [lfs_call_length c _ _ st1.1 st1.2 h4, create_file_loop_length L c _ a b h3]
    exact lfs_call_length c _ _ a.1 a.2 h1
  · simp only [Except.ok.injEq] at h
    rw [h]

mutual
theorem compact_length {σ : Type} (L : Lfs σ) (c : lfs_config) :
    ∀ (node : Node) (src : CStr) (st st1 : σ × List Byte),
      compact L c src node st = .ok st1 → st1.2.length = st.2.length
  | .reg _, src, st, st1, h => by
    simp only [compact, Except.ok.injEq] at h
    rw [h]
  | .other, src, st, st1, h => by
    simp only [compact, Except.ok.injEq] at h
    rw [h]
  | .dir ents, src, st, st1, h => by
    simp only [compact] at h
    exact compact_loop_length L c ents src st st1 h
theorem compact_loop_length {σ : Type} (L : Lfs σ) (c : lfs_config) :
    ∀ (ents : Entries) (src : CStr) (st st1 : σ × List Byte),
      compact_loop L c src ents st = .ok st1 → st1.2.length = st.2.length
  | .nil, src, st, st1, h => by
    simp only [compact_loop, Except.ok.injEq] at h
    rw [h]
  | .cons d_name node rest, src, st, st1, h => by
    simp only [compact_loop] at h
    split at h
    · split at h
      · obtain ⟨a, h1, h2⟩ := bind_ok _ _ _ h
        obtain ⟨b, h3, h4⟩ := bind_ok _ _ _ h2
        rw [compact_loop_length L c rest src b st1 h4, compact_length L c node _ a b h3]
        exact create_dir_length L c _ st a h1
      · split at h
        · obtain ⟨a, h1, h2⟩ := bind_ok _ _ _ h
          rw [compact_loop_length L c rest src a st1 h2]
          exact create_file_length L c _ node st a h1
        · exact compact_loop_length L c rest src st st1 h
    · exact compact_loop_length L c rest src st st1 h
end

/-! ## The capacity estimate -/

theorem strchr_append_slash (src rest : CStr) :
    strchr (src ++ '/' :: rest) '/' = some (lfs_path src ++ '/' :: rest) := by
  induction src with
  | nil => simp [strchr, lfs_path]
  | cons x xs ih =>
    by_cases hx : x = '/'
    · subst hx
      simp [strchr, lfs_path]
    · have h1 : strchr ((x :: xs) ++ '/' :: rest) '/' = strchr (xs ++ '/' :: rest) '/' := by
        simp [strchr, hx]
      have h2 : lfs_path (x :: xs) = lfs_path xs := by
        simp [lfs_path, strchr, hx]
      rw [h1, h2, ih]

theorem legal_name_iff (d_name : CStr) :
    legal_name d_name = true ↔
      d_name ≠ [] ∧ '/' ∉ d_name ∧ d_name ≠ ['.'] ∧ d_name ≠ ['.', '.'] := by
  unfold legal_name
  simp only [Bool.and_eq_true, decide_eq_true_eq]
  tauto

theorem Entries.wf_cons (d_name : CStr) (node : Node) (rest : Entries) :
    (Entries.cons d_name node rest).wf = true ↔
      legal_name d_name = true ∧ d_name ∉ rest.names ∧ node.wf = true ∧ rest.wf = true := by
  simp only [Entries.wf, Bool.and_eq_true, decide_eq_true_eq]
  tauto

theorem dir_size_loop_nil (src : CStr) (sz : Int) : dir_size_loop src .nil sz = sz := by
  rw [dir_size_loop]

theorem dir_size_loop_cons (src d_name : CStr) (node : Node) (rest : Entries) (sz : Int) :
    dir_size_loop src (.cons d_name node rest) sz =
      if d_name ≠ ['.'] ∧ d_name ≠ ['.', '.'] then
        if node.d_type = .DT_DIR then
          dir_size_loop src rest (sz + dir_size (curr_path src d_name) node)
        else if node.d_type = .DT_REG then
          dir_size_loop src rest (sz + file_size (curr_path src d_name) node)
        else dir_size_loop src rest sz
      else dir_size_loop src rest sz := by
  rw [dir_size_loop]

theorem dir_size_of_dir (src : CStr) (ents : Entries) :
    dir_size src (.dir ents) = dir_size_loop src ents 0 := by
  rw [dir_size]

mutual
theorem dir_size_dir : ∀ (node : Node) (src : CStr), node.wf = true →
    node.d_type = .DT_DIR → dir_size src node = ((node.files.map List.length).sum : Nat)
  | .reg _, src, _, h => by cases h
  | .other, src, _, h => by cases h
  | .dir ents, src, hwf, _ => by
    rw [dir_size_of_dir, dir_size_loop_eq ents src 0 (by simpa [Node.wf] using hwf)]
    simp [Node.files]
theorem dir_size_loop_eq : ∀ (ents : Entries) (src : CStr) (sz : Int), ents.wf = true →
    dir_size_loop src ents sz = sz + ((ents.files.map List.length).sum : Nat)
  | .nil, src, sz, _ => by simp [dir_size_loop_nil, Entries.files]
  | .cons d_name node rest, src, sz, hwf => by
    rw [Entries.wf_cons, legal_name_iff] at hwf
    obtain ⟨⟨_, _, hdot, hdotdot⟩, _, hnode, hrest⟩ := hwf
    rw [dir_size_loop_cons, if_pos ⟨hdot, hdotdot⟩]
    simp only [Entries.files, List.map_append, List.sum_append]
    cases node with
    | reg content =>
      simp only [Node.d_type, reduceCtorEq, if_false, if_true, file_size, curr_path,
        strchr_append_slash, Node.content, Node.files]
      rw [dir_size_loop_eq rest src _ hrest]
      simp
      ring
    | dir ents1 =>
      simp only [Node.d_type, if_true]
      rw [dir_size_loop_eq rest src _ hrest, dir_size_dir (.dir ents1) _ hnode rfl]
      push_cast
      ring
    | other =>
      simp only [Node.d_type, reduceCtorEq, if_false, Node.files]
      rw [dir_size_loop_eq rest src _ hrest]
      simp
end


/-! ## `main` -/

/-- When `main_build` writes an image, it is the finalized working buffer, whose
length is `total_size`. -/
theorem main_build_fwrite {σ : Type} (h : Host σ) (l : Locals) (src dst : CStr)
    (image : List Byte) (hw : Event.fwrite image ∈ (main_build h l src dst).1) :
    image.length = (dir_size (basename src) h.tree + l.block_size * 16).toNat ∧
    (main_build h l src dst).2 = .returned 0 := by
  unfold main_build at hw ⊢
  simp only at hw ⊢
  split at hw
  · simp at hw
  split at hw
  · simp at hw
  split at hw
  · simp at hw
  rename_i hchdir hcalloc _ err1 s1 data1 hformat
  split at hw
  · simp at hw
  rename_i herr1
  split at hw
  · simp at hw
  rename_i err2 s2 data2 hmount
  split at hw
  · simp at hw
  rename_i herr2
  split at hw
  · simp at hw
  · simp at hw
  rename_i s3 data3 hcompact
  split at hw
  · simp at hw
  rename_i hfopen
  simp only [List.mem_cons, reduceCtorEq, Event.fwrite.injEq, false_or, List.mem_singleton,
    or_false, List.not_mem_nil] at hw
  have h1 := Dev.run_length _ _ _ _ _ hformat
  have h2 := Dev.run_length _ _ _ _ _ hmount
  have h3 := compact_length _ _ _ _ _ _ hcompact
  simp only at h3
  have h4 := (main_finalize_frame l.shrinked (h.lib.lfs_z_get_superblock s3 0)
    (h.lib.lfs_z_get_superblock s3) l.fs_size l.block_size
    (dir_size (basename src) h.tree + l.block_size * 16) data3 h.beyond).1
  constructor
  · rw [hw, List.length_take, h4, h3, h2, h1, List.length_replicate]
    simp
  · simp [herr1, herr2, hfopen, hchdir, hcalloc]

/-- When `main` writes an image, the argument test was passed and the image has
`total_size` bytes. -/
theorem main_fwrite {σ : Type} (h : Host σ) (opts : List (Char × CStr))
    (image : List Byte) (hw : Event.fwrite image ∈ (main h opts).1) :
    ∃ src, (main_getopt opts).src = some src ∧ 0 < (main_getopt opts).block_size ∧
      0 < (main_getopt opts).fs_size ∧
      image.length =
        (dir_size (basename src) h.tree + (main_getopt opts).block_size * 16).toNat ∧
      (main h opts).2 = .returned 0 := by
  unfold main at hw ⊢
  simp only at hw ⊢
  split at hw
  · rename_i src dst hsrc hdst
    split at hw
    · simp at hw
    · rename_i hok
      have hb := main_build_fwrite h _ src dst image hw
      refine ⟨src, hsrc, by omega, by omega, hb.1, ?_⟩
      rw [if_neg hok]
      exact hb.2
  · simp at hw


/-! ## The calls of the populator -/

theorem char_byte_val (b : Byte) : char_byte (b.val : Int) = b := by
  apply Fin.ext
  have hb := b.isLt
  simp only [char_byte, Fin.ofNat]
  omega

theorem lfs_call_ret {σ : Type} (c : lfs_config) (ret : Int) (s : σ) (data : List Byte) :
    lfs_call c (.ret (ret, s)) data = if ret < 0 then .error (.exit 1) else .ok (s, data) := by
  simp [lfs_call, Dev.run]

theorem lfs_path_curr_path (src d_name : CStr) :
    lfs_path (curr_path src d_name) = lfs_path src ++ '/' :: d_name := by
  unfold curr_path
  rw [lfs_path, strchr_append_slash]
  rfl

theorem create_file_loop_recorder (c : lfs_config) :
    ∀ (unread : List Byte) (calls : List Call) (data : List Byte),
      create_file_loop recorder c unread (calls, data) =
        .ok (calls ++ unread.map (fun b => Call.lfs_file_write [b]), data) := by
  intro unread
  induction unread with
  | nil => intro calls data; simp [create_file_loop]
  | cons b unread ih =>
    intro calls data
    simp only [create_file_loop, recorder, lfs_call_ret, char_byte_val]
    have h : ¬ (((([b] : List Byte).length : Nat) : Int) < 0) := by simp
    rw [if_neg h]
    show create_file_loop recorder c unread _ = _
    rw [ih]
    simp

theorem compact_loop_recorder (c : lfs_config) :
    ∀ (ents : Entries) (src : CStr) (calls : List Call) (data : List Byte),
      compact_loop recorder c src ents (calls, data) =
        .ok (calls ++ ents.script (lfs_path src), data)
  | .nil, src, calls, data => by simp [compact_loop, Entries.script]
  | .cons d_name (.dir sub) rest, src, calls, data => by
    rw [compact_loop, Entries.script]
    by_cases hdot : d_name ≠ ['.'] ∧ d_name ≠ ['.', '.']
    · rw [if_pos hdot, if_pos hdot]
      simp only [Node.d_type, if_true, create_dir, curr_path, strchr_append_slash]
      simp only [recorder, lfs_call_ret]
      show (compact recorder c (curr_path src d_name) (.dir sub) _ >>= _) = _
      rw [compact, compact_loop_recorder c sub]
      show compact_loop recorder c src rest _ = _
      rw [compact_loop_recorder c rest, lfs_path_curr_path]
      simp
    · rw [if_neg hdot, if_neg hdot]
      exact compact_loop_recorder c rest src calls data
  | .cons d_name (.reg content) rest, src, calls, data => by
    rw [compact_loop, Entries.script]
    by_cases hdot : d_name ≠ ['.'] ∧ d_name ≠ ['.', '.']
    · rw [if_pos hdot, if_pos hdot]
      simp only [Node.d_type, reduceCtorEq, if_false, if_true, create_file, curr_path,
        strchr_append_slash, Node.content]
      simp only [recorder, lfs_call_ret]
      show (create_file_loop recorder c content _ >>= _) >>= _ = _
      rw [create_file_loop_recorder]
      show compact_loop recorder c src rest _ = _
      rw [compact_loop_recorder c rest]
      simp
    · rw [if_neg hdot, if_neg hdot]
      exact compact_loop_recorder c rest src calls data
  | .cons d_name .other rest, src, calls, data => by
    rw [compact_loop, Entries.script]
    simp only [Node.d_type, reduceCtorEq, if_false, ite_self]
    exact compact_loop_recorder c rest src calls data


theorem Entries.wf_names : ∀ (ents : Entries), ents.wf = true →
    ∀ m, m ∈ ents.names → legal_name m = true
  | .nil, _, m, hm => by simp [Entries.names] at hm
  | .cons d_name node rest, hwf, m, hm => by
    rw [Entries.wf_cons] at hwf
    simp only [Entries.names, List.mem_cons] at hm
    rcases hm with hm | hm
    · rw [hm]; exact hwf.1
    · exact Entries.wf_names rest hwf.2.2.2 m hm

/-- Every path named in the script of a directory continues the path of the
directory with a slash and the name of one of its entries, and then ends or goes on
with a slash. -/
theorem Entries.script_shape : ∀ (ents : Entries) (q : CStr) (x : Call) (p : CStr),
    x ∈ ents.script q → x.path = some p →
    ∃ n t, n ∈ ents.names ∧ p = q ++ '/' :: n ++ t ∧ (t = [] ∨ ∃ u, t = '/' :: u)
  | .nil, q, x, p, hx, _ => by simp [Entries.script] at hx
  | .cons d_name (.dir sub) rest, q, x, p, hx, hp => by
    rw [Entries.script] at hx
    split at hx
    · simp only [List.mem_cons, List.mem_append] at hx
      rcases hx with hx | hx | hx
      · subst hx
        simp only [Call.path, Option.some.injEq] at hp
        exact ⟨d_name, [], by simp [Entries.names], by simp [← hp], Or.inl rfl⟩
      · obtain ⟨n, t, _, hpe, _⟩ := Entries.script_shape sub _ x p hx hp
        exact ⟨d_name, '/' :: n ++ t, by simp [Entries.names], by simp [hpe], Or.inr ⟨_, rfl⟩⟩
      · obtain ⟨n, t, hn, hpe, ht⟩ := Entries.script_shape rest q x p hx hp
        exact ⟨n, t, by simp [Entries.names, hn], hpe, ht⟩
    · obtain ⟨n, t, hn, hpe, ht⟩ := Entries.script_shape rest q x p hx hp
      exact ⟨n, t, by simp [Entries.names, hn], hpe, ht⟩
  | .cons d_name (.reg content) rest, q, x, p, hx, hp => by
    rw [Entries.script] at hx
    split at hx
    · simp only [List.mem_cons, List.mem_append, List.mem_map] at hx
      rcases hx with hx | ⟨b, _, hx⟩ | hx | hx
      · subst hx
        simp only [Call.path, Option.some.injEq] at hp
        exact ⟨d_name, [], by simp [Entries.names], by simp [← hp], Or.inl rfl⟩
      · subst hx
        simp [Call.path] at hp
      · subst hx
        simp [Call.path] at hp
      · obtain ⟨n, t, hn, hpe, ht⟩ := Entries.script_shape rest q x p hx hp
        exact ⟨n, t, by simp [Entries.names, hn], hpe, ht⟩
    · obtain ⟨n, t, hn, hpe, ht⟩ := Entries.script_shape rest q x p hx hp
      exact ⟨n, t, by simp [Entries.names, hn], hpe, ht⟩
  | .cons d_name .other rest, q, x, p, hx, hp => by
    rw [Entries.script] at hx
    obtain ⟨n, t, hn, hpe, ht⟩ := Entries.script_shape rest q x p hx hp
    exact ⟨n, t, by simp [Entries.names, hn], hpe, ht⟩

/-- Two names without a slash that are each followed by a slash or by the end of
the path are equal when one of the paths goes on where the other does. -/
theorem name_prefix_eq : ∀ (a b x y : CStr), '/' ∉ a → '/' ∉ b →
    (∃ u, x = '/' :: u) → (y = [] ∨ ∃ u, y = '/' :: u) → (a ++ x) <+: (b ++ y) → a = b
  | [], [], _, _, _, _, _, _, _ => rfl
  | [], c :: b, x, y, _, hb, ⟨u, hx⟩, _, h => by
    subst hx
    simp only [List.nil_append, List.cons_append, List.cons_prefix_cons] at h
    exact absurd (by simp [← h.1]) hb
  | c :: a, [], x, y, ha, _, _, hy, h => by
    rcases hy with hy | ⟨u, hy⟩
    · subst hy
      simp at h
    · subst hy
      simp only [List.nil_append, List.cons_append, List.cons_prefix_cons] at h
      exact absurd (by simp [h.1]) ha
  | c :: a, d :: b, x, y, ha, hb, hx, hy, h => by
    simp only [List.cons_append, List.cons_prefix_cons] at h
    have := name_prefix_eq a b x y (fun hc => ha (List.mem_cons_of_mem _ hc))
      (fun hc => hb (List.mem_cons_of_mem _ hc)) hx hy h.2
    rw [h.1, this]

/-- No path below one entry lies beneath a path below another entry of the same
directory. -/
theorem no_cross (q n m t u : CStr) (hn : '/' ∉ n) (hm : '/' ∉ m) (hne : m ≠ n)
    (ht : t = [] ∨ ∃ v, t = '/' :: v) (hu : u = [] ∨ ∃ v, u = '/' :: v) :
    ¬ beneath (q ++ '/' :: m ++ u) (q ++ '/' :: n ++ t) := by
  intro h
  unfold beneath at h
  have h1 : (q ++ '/' :: m ++ u) ++ ['/'] = (q ++ ['/']) ++ (m ++ (u ++ ['/'])) := by simp
  have h2 : q ++ '/' :: n ++ t = (q ++ ['/']) ++ (n ++ t) := by simp
  rw [h1, h2, List.prefix_append_right_inj] at h
  apply hne
  apply name_prefix_eq m n (u ++ ['/']) t hm hn _ ht h
  rcases hu with hu | ⟨v, hu⟩
  · exact ⟨[], by simp [hu]⟩
  · exact ⟨v ++ ['/'], by simp [hu]⟩

theorem in_order_of_no_path (x y : Call) (h : x.path = none) : in_order x y := by
  intro dir path _ hp
  rw [h] at hp
  cases hp

theorem in_order_of_no_mkdir (x y : Call) (h : ∀ dir, y ≠ .lfs_mkdir dir) : in_order x y := by
  intro dir path hy _
  exact absurd hy (h dir)

/-- A call below the entry `n` and a later `lfs_mkdir` below another entry `m` of
the same directory are in order. -/
theorem in_order_cross (q n : CStr) (rest : Entries) (x y : Call) (hn : legal_name n = true)
    (hnot : n ∉ rest.names) (hrest : rest.wf = true)
    (hx : ∀ p, x.path = some p → ∃ t, p = q ++ '/' :: n ++ t ∧ (t = [] ∨ ∃ v, t = '/' :: v))
    (hy : y ∈ rest.script q) : in_order x y := by
  intro dir path hyd hxp
  subst hyd
  obtain ⟨t, hpe, ht⟩ := hx path hxp
  obtain ⟨m, u, hm, hde, hu⟩ := Entries.script_shape rest q _ dir hy rfl
  rw [hpe, hde]
  have hml := Entries.wf_names rest hrest m hm
  rw [legal_name_iff] at hn hml
  exact no_cross q n m t u hn.2.1 hml.2.1 (fun h => hnot (h ▸ hm)) ht hu

/-- In the script of a host directory no `lfs_mkdir` comes after a call that names
a path beneath the directory it creates. -/
theorem Entries.script_in_order : ∀ (ents : Entries) (q : CStr), ents.wf = true →
    List.Pairwise in_order (ents.script q)
  | .nil, q, _ => by simp [Entries.script]
  | .cons d_name (.dir sub) rest, q, hwf => by
    rw [Entries.wf_cons] at hwf
    obtain ⟨hlegal, hnot, hsub, hrest⟩ := hwf
    have hdots := (legal_name_iff d_name).mp hlegal
    rw [Entries.script, if_pos ⟨hdots.2.2.1, hdots.2.2.2⟩, List.pairwise_cons,
      List.pairwise_append]
    refine ⟨?_, Entries.script_in_order sub _ (by simpa [Node.wf] using hsub),
      Entries.script_in_order rest q hrest, ?_⟩
    · intro y hy
      rw [List.mem_append] at hy
      rcases hy with hy | hy
      · intro dir path hyd hxp
        subst hyd
        simp only [Call.path, Option.some.injEq] at hxp
        obtain ⟨m, u, _, hde, _⟩ := Entries.script_shape sub _ _ dir hy rfl
        intro hb
        have hlen := List.IsPrefix.length_le hb
        rw [hde, ← hxp] at hlen
        simp at hlen
      · apply in_order_cross q d_name rest _ y hlegal hnot hrest _ hy
        intro p hp
        simp only [Call.path, Option.some.injEq] at hp
        exact ⟨[], by simp [← hp], Or.inl rfl⟩
    · intro x hx y hy
      apply in_order_cross q d_name rest x y hlegal hnot hrest _ hy
      intro p hp
      obtain ⟨m, u, _, hpe, _⟩ := Entries.script_shape sub _ x p hx hp
      exact ⟨'/' :: m ++ u, by simp [hpe], Or.inr ⟨_, rfl⟩⟩
  | .cons d_name (.reg content) rest, q, hwf => by
    rw [Entries.wf_cons] at hwf
    obtain ⟨hlegal, hnot, _, hrest⟩ := hwf
    have hdots := (legal_name_iff d_name).mp hlegal
    rw [Entries.script, if_pos ⟨hdots.2.2.1, hdots.2.2.2⟩, List.pairwise_cons,
      List.pairwise_append, List.pairwise_cons]
    refine ⟨?_, ?_, ⟨?_, Entries.script_in_order rest q hrest⟩, ?_⟩
    · intro y hy
      simp only [List.mem_append, List.mem_map, List.mem_cons] at hy
      rcases hy with ⟨b, _, hy⟩ | hy | hy
      · exact in_order_of_no_mkdir _ _ (by intro dir; rw [← hy]; simp)
      · exact in_order_of_no_mkdir _ _ (by intro dir; rw [hy]; simp)
      · apply in_order_cross q d_name rest _ y hlegal hnot hrest _ hy
        intro p hp
        simp only [Call.path, Option.some.injEq] at hp
        exact ⟨[], by simp [← hp], Or.inl rfl⟩
    · rw [List.pairwise_map]
      exact List.pairwise_of_forall (fun x y => in_order_of_no_path _ _ rfl)
    · intro y _
      exact in_order_of_no_path _ _ rfl
    · intro x hx y _
      simp only [List.mem_map] at hx
      obtain ⟨b, _, hx⟩ := hx
      exact in_order_of_no_path _ _ (by rw [← hx]; rfl)
  | .cons d_name .other rest, q, hwf => by
    rw [Entries.wf_cons] at hwf
    rw [Entries.script]
    exact Entries.script_in_order rest q hwf.2.2.2


theorem parents_first_mono : ∀ (l : List Call) (cr cr1 : List CStr),
    (∀ d, d ∈ cr → d ∈ cr1) → parents_first cr l → parents_first cr1 l
  | [], _, _, _, _ => trivial
  | x :: rest, cr, cr1, hsub, h => by
    obtain ⟨h1, h2⟩ := h
    refine ⟨fun path hp dir name hpe hname => hsub _ (h1 path hp dir name hpe hname), ?_⟩
    apply parents_first_mono rest _ _ _ h2
    intro d hd
    cases x <;> first | exact hsub d hd | skip
    rename_i path
    simp only [List.mem_cons] at hd ⊢
    exact hd.imp id (hsub d)

theorem parents_first_append : ∀ (l l1 : List Call) (cr : List CStr),
    parents_first cr l →
    (∀ cr1, (∀ d, d ∈ cr → d ∈ cr1) → parents_first cr1 l1) → parents_first cr (l ++ l1)
  | [], l1, cr, _, h => h cr (fun _ hd => hd)
  | x :: rest, l1, cr, h, h1 => by
    obtain ⟨h2, h3⟩ := h
    refine ⟨h2, ?_⟩
    apply parents_first_append rest l1 _ h3
    intro cr1 hsub
    apply h1 cr1
    intro d hd
    apply hsub
    cases x <;> first | exact hd | exact List.mem_cons_of_mem _ hd

theorem parents_first_writes (cr : List CStr) (content : List Byte) (l : List Call)
    (h : parents_first cr l) :
    parents_first cr (content.map (fun b => Call.lfs_file_write [b]) ++ l) := by
  induction content with
  | nil => exact h
  | cons b content ih =>
    refine ⟨?_, ih⟩
    intro path hp
    simp [Call.path] at hp

/-- A path ends in one name only: the directory part before its last slash is
determined. -/
theorem last_slash_unique : ∀ (q d n name : CStr), '/' ∉ n → '/' ∉ name →
    q ++ '/' :: n = d ++ '/' :: name → q = d
  | [], [], _, _, _, _, _ => rfl
  | [], c :: d, n, name, hn, _, h => by
    simp only [List.nil_append, List.cons_append, List.cons.injEq] at h
    exact absurd (by rw [h.2]; simp) hn
  | c :: q, [], n, name, _, hname, h => by
    simp only [List.nil_append, List.cons_append, List.cons.injEq] at h
    exact absurd (by rw [← h.2]; simp) hname
  | c :: q, e :: d, n, name, hn, hname, h => by
    simp only [List.cons_append, List.cons.injEq] at h
    rw [h.1, last_slash_unique q d n name hn hname h.2]

/-- In the script of a host directory whose own path was created before, every
call that names a path comes after the `lfs_mkdir` of the directory part of that
path. -/
theorem Entries.script_parents_first : ∀ (ents : Entries) (q : CStr) (cr : List CStr),
    ents.wf = true → q ∈ cr → parents_first cr (ents.script q)
  | .nil, q, cr, _, _ => by simp [Entries.script, parents_first]
  | .cons d_name (.dir sub) rest, q, cr, hwf, hq => by
    rw [Entries.wf_cons] at hwf
    obtain ⟨hlegal, _, hsub, hrest⟩ := hwf
    have hdots := (legal_name_iff d_name).mp hlegal
    rw [Entries.script, if_pos ⟨hdots.2.2.1, hdots.2.2.2⟩]
    refine ⟨?_, ?_⟩
    · intro path hp dir name hpe hname
      simp only [Call.path, Option.some.injEq] at hp
      rw [← hp] at hpe
      rw [← last_slash_unique q dir d_name name hdots.2.1 hname hpe]
      exact hq
    · apply parents_first_append
      · exact Entries.script_parents_first sub _ _ (by simpa [Node.wf] using hsub)
          (List.mem_cons_self _ _)
      · intro cr1 hsub1
        exact Entries.script_parents_first rest q cr1 hrest
          (hsub1 q (List.mem_cons_of_mem _ hq))
  | .cons d_name (.reg content) rest, q, cr, hwf, hq => by
    rw [Entries.wf_cons] at hwf
    obtain ⟨hlegal, _, _, hrest⟩ := hwf
    have hdots := (legal_name_iff d_name).mp hlegal
    rw [Entries.script, if_pos ⟨hdots.2.2.1, hdots.2.2.2⟩]
    refine ⟨?_, ?_⟩
    · intro path hp dir name hpe hname
      simp only [Call.path, Option.some.injEq] at hp
      rw [← hp] at hpe
      rw [← last_slash_unique q dir d_name name hdots.2.1 hname hpe]
      exact hq
    · apply parents_first_writes
      refine ⟨?_, Entries.script_parents_first rest q cr hrest hq⟩
      intro path hp
      simp [Call.path] at hp
  | .cons d_name .other rest, q, cr, hwf, hq => by
    rw [Entries.wf_cons] at hwf
    rw [Entries.script]
    exact Entries.script_parents_first rest q cr hwf.2.2.2 hq

theorem parents_first_index : ∀ (l : List Call) (cr : List CStr), parents_first cr l →
    ∀ (j : Nat) (x : Call) (path dir name : CStr), l[j]? = some x → x.path = some path →
      path = dir ++ '/' :: name → '/' ∉ name →
      dir ∈ cr ∨ ∃ i, i < j ∧ l[i]? = some (.lfs_mkdir dir)
  | [], _, _, j, x, _, _, _, hj, _, _, _ => by simp at hj
  | y :: rest, cr, h, 0, x, path, dir, name, hj, hp, hpe, hname => by
    simp only [List.getElem?_cons_zero, Option.some.injEq] at hj
    subst hj
    exact Or.inl (h.1 path hp dir name hpe hname)
  | y :: rest, cr, h, j + 1, x, path, dir, name, hj, hp, hpe, hname => by
    rw [List.getElem?_cons_succ] at hj
    rcases parents_first_index rest _ h.2 j x path dir name hj hp hpe hname with hd | ⟨i, hi, hm⟩
    · cases y with
      | lfs_mkdir d =>
        simp only [List.mem_cons] at hd
        rcases hd with hd | hd
        · exact Or.inr ⟨0, by omega, by simp [hd]⟩
        · exact Or.inl hd
      | lfs_format => exact Or.inl hd
      | lfs_mount => exact Or.inl hd
      | lfs_file_open _ => exact Or.inl hd
      | lfs_file_write _ => exact Or.inl hd
      | lfs_file_close => exact Or.inl hd
    · exact Or.inr ⟨i + 1, by omega, by rw [List.getElem?_cons_succ]; exact hm⟩

theorem not_beneath_self (dir : CStr) : ¬ beneath dir dir := by
  intro h
  have := List.IsPrefix.length_le h
  simp at this

/-- On a host where every step succeeds and the library is the recording one,
`main` with arguments that pass its test writes an image and returns 0. -/
theorem main_recording_host (ents : Entries) (opts : List (Char × CStr)) (src dst : CStr)
    (hsrc : (main_getopt opts).src = some src) (hdst : (main_getopt opts).dst = some dst)
    (hb : 0 < (main_getopt opts).block_size) (hp : 0 < (main_getopt opts).prog_size)
    (hr : 0 < (main_getopt opts).read_size) (hf : 0 < (main_getopt opts).fs_size) :
    ∃ image, main (recording_host ents) opts =
      ([.chdir, .scan (basename src),
        .calloc (dir_size (basename src) (.dir ents) + (main_getopt opts).block_size * 16),
        .format, .mount, .populate (basename src), .fopen dst, .fwrite image, .fclose],
        .returned 0) := by
  unfold main
  simp only [hsrc, hdst]
  rw [if_neg (by omega)]
  unfold main_build
  simp only [recording_host, recorder, Dev.run]
  have hc := compact_loop_recorder
    (main_cfg (main_getopt opts)
      (dir_size (basename src) (.dir ents) + (main_getopt opts).block_size * 16))
    ents (basename src)
  simp only [recorder] at hc
  simp only [compact, hc]
  exact ⟨_, rfl⟩


theorem example_opts_locals :
    main_getopt example_opts =
      { main_locals with src := some "/data".toList, dst := some "image.bin".toList,
                         block_size := 4096, fs_size := 65536 } := by
  decide

theorem zero_cache_opts_locals :
    main_getopt zero_cache_opts =
      { main_locals with src := some "/data".toList, dst := some "image.bin".toList,
                         fs_size := 65536, cache_size := 0, lookahead_size := 0 } := by
  decide

/-- The image `main` writes for a host tree has `estimated_content_size + 16 *
block_size` bytes. -/
theorem main_image_length {σ : Type} (h : Host σ) (opts : List (Char × CStr))
    (ents : Entries) (image : List Byte) (htree : h.tree = .dir ents)
    (hwf : ents.wf = true) (hw : Event.fwrite image ∈ (main h opts).1) :
    (image.length : Int) =
      (estimated_content_size ents : Int) + 16 * (main_getopt opts).block_size ∧
    0 < (main_getopt opts).block_size := by
  obtain ⟨src, _, hb, _, hlen, _⟩ := main_fwrite h opts image hw
  rw [htree, dir_size_of_dir, dir_size_loop_eq ents _ 0 hwf] at hlen
  refine ⟨?_, hb⟩
  rw [hlen]
  unfold estimated_content_size
  omega

theorem main_switch_src (l : Locals) (o : Char × CStr) (h : o.1 ≠ 'c') :
    (main_switch l o).src = l.src := by
  unfold main_switch
  rw [if_neg h]
  repeat' split
  all_goals rfl

theorem main_switch_dst (l : Locals) (o : Char × CStr) (h : o.1 ≠ 'o') :
    (main_switch l o).dst = l.dst := by
  unfold main_switch
  by_cases hc : o.1 = 'c'
  · rw [if_pos hc]
  · rw [if_neg hc, if_neg h]
    repeat' split
    all_goals rfl

theorem main_switch_fs_size (l : Locals) (o : Char × CStr) (h : o.1 ≠ 's') :
    (main_switch l o).fs_size = l.fs_size := by
  unfold main_switch
  repeat' split
  all_goals rfl

theorem main_getopt_absent (opts : List (Char × CStr)) :
    ((∀ o ∈ opts, o.1 ≠ 'c') → (main_getopt opts).src = none) ∧
    ((∀ o ∈ opts, o.1 ≠ 'o') → (main_getopt opts).dst = none) ∧
    ((∀ o ∈ opts, o.1 ≠ 's') → (main_getopt opts).fs_size = 0) := by
  unfold main_getopt
  have key : ∀ (opts : List (Char × CStr)) (l : Locals),
      ((∀ o ∈ opts, o.1 ≠ 'c') → (opts.foldl main_switch l).src = l.src) ∧
      ((∀ o ∈ opts, o.1 ≠ 'o') → (opts.foldl main_switch l).dst = l.dst) ∧
      ((∀ o ∈ opts, o.1 ≠ 's') → (opts.foldl main_switch l).fs_size = l.fs_size) := by
    intro opts
    induction opts with
    | nil => intro l; simp
    | cons o rest ih =>
      intro l
      obtain ⟨h1, h2, h3⟩ := ih (main_switch l o)
      simp only [List.foldl_cons, List.mem_cons, forall_eq_or_imp]
      refine ⟨fun h => ?_, fun h => ?_, fun h => ?_⟩
      · rw [h1 h.2, main_switch_src l o h.1]
      · rw [h2 h.2, main_switch_dst l o h.1]
      · rw [h3 h.2, main_switch_fs_size l o h.1]
  exact key opts main_locals

theorem strchr_none (s : CStr) (h : '/' ∉ s) : strchr s '/' = none := by
  induction s with
  | nil => rfl
  | cons x xs ih =>
    simp only [List.mem_cons, not_or] at h
    simp only [strchr]
    rw [if_neg (fun hx => h.1 hx.symm)]
    exact ih h.2

theorem split_acc_name : ∀ (n cur : CStr), '/' ∉ n →
    split_acc n cur = if cur ++ n = [] then [] else [cur ++ n]
  | [], cur, _ => by simp [split_acc]
  | ch :: n, cur, h => by
    simp only [List.mem_cons, not_or] at h
    simp only [split_acc]
    rw [if_neg (fun hx => h.1 hx.symm), split_acc_name n (cur ++ [ch]) h.2]
    simp

theorem split_acc_append_slash : ∀ (x cur n : CStr), '/' ∉ n → n ≠ [] →
    split_acc (x ++ '/' :: n) cur = split_acc x cur ++ [n]
  | [], cur, n, hn, hne => by
    simp only [List.nil_append, split_acc, if_true]
    rw [split_acc_name n [] hn]
    by_cases hcur : cur = []
    · simp [hcur, hne]
    · simp [hcur, hne]
  | ch :: x, cur, n, hn, hne => by
    rw [List.cons_append, split_acc, split_acc]
    by_cases hch : ch = '/'
    · rw [if_pos hch, if_pos hch, split_acc_append_slash x [] n hn hne]
      by_cases hcur : cur = []
      · simp [hcur]
      · simp [hcur]
    · rw [if_neg hch, if_neg hch, split_acc_append_slash x _ n hn hne]

theorem split_path_append_slash (q n : CStr) (hn : legal_name n = true) :
    split_path (q ++ '/' :: n) = split_path q ++ [n] := by
  rw [legal_name_iff] at hn
  exact split_acc_append_slash q [] n hn.2.1 hn.1

theorem basename_cases (path : CStr) :
    basename path = ['/'] ∨ '/' ∉ basename path := by
  unfold basename
  by_cases h0 : path = []
  · rw [if_pos h0]
    right
    decide
  · rw [if_neg h0]
    simp only
    split
    · left; rfl
    · right
      intro hmem
      rw [List.mem_reverse] at hmem
      have := List.mem_takeWhile_imp hmem
      simp at this

theorem split_path_basename (path : CStr) : split_path (lfs_path (basename path)) = [] := by
  rcases basename_cases path with h | h
  · rw [h]
    decide
  · rw [lfs_path, strchr_none _ h]
    rfl

/-! ## The reference filesystem -/

theorem find_key_none (es : List (List CStr × FsEntry)) (p : List CStr)
    (h : ∀ e ∈ es, e.1 ≠ p) : es.find? (fun e => decide (e.1 = p)) = none := by
  rw [List.find?_eq_none]
  intro e he
  simpa using h e he

theorem lookup_new (es : List (List CStr × FsEntry)) (p : List CStr) (v : FsEntry)
    (o : Option (List CStr × Nat)) (hp : p ≠ []) (h : ∀ e ∈ es, e.1 ≠ p) :
    FsState.lookup { entries := es ++ [(p, v)], opened := o } p = some v := by
  unfold FsState.lookup
  rw [if_neg hp]
  simp only [List.find?_append, find_key_none es p h]
  simp

theorem lookup_absent (es : List (List CStr × FsEntry)) (p : List CStr)
    (o : Option (List CStr × Nat)) (hp : p ≠ []) (h : ∀ e ∈ es, e.1 ≠ p) :
    FsState.lookup { entries := es, opened := o } p = none := by
  unfold FsState.lookup
  rw [if_neg hp]
  simp only [find_key_none es p h]
  rfl

theorem lookup_grow (es more : List (List CStr × FsEntry)) (p : List CStr) (v : FsEntry)
    (o o1 : Option (List CStr × Nat))
    (h : FsState.lookup { entries := es, opened := o } p = some v) :
    FsState.lookup { entries := es ++ more, opened := o1 } p = some v := by
  unfold FsState.lookup at h ⊢
  by_cases hp : p = []
  · rw [if_pos hp] at h ⊢
    exact h
  · rw [if_neg hp] at h ⊢
    simp only [List.find?_append]
    cases hf : es.find? (fun e => decide (e.1 = p)) with
    | none => simp only [hf] at h; cases h
    | some e => simp only [hf] at h; simpa using h

theorem update_new (es : List (List CStr × FsEntry)) (p : List CStr) (v w : FsEntry)
    (h : ∀ e ∈ es, e.1 ≠ p) :
    (es ++ [(p, v)]).map (fun e => if e.1 = p then (p, w) else e) = es ++ [(p, w)] := by
  rw [List.map_append]
  congr 1
  · conv_rhs => rw [← List.map_id es]
    apply List.map_congr_left
    intro e he
    rw [if_neg (h e he)]
    rfl
  · simp

theorem lfs_call_pure {σ : Type} (c : lfs_config) (x : Int × σ) (data : List Byte) :
    lfs_call c (.ret x) data = if x.1 < 0 then .error (.exit 1) else .ok (x.2, data) := by
  simp [lfs_call, Dev.run]

theorem fs_mkdir_new (es : List (List CStr × FsEntry)) (path : CStr)
    (hp : split_path path ≠ []) (h : ∀ e ∈ es, e.1 ≠ split_path path)
    (hparent : FsState.lookup { entries := es, opened := none } (split_path path).dropLast =
      some .dir) :
    fs_mkdir { entries := es, opened := none } path =
      (0, { entries := es ++ [(split_path path, .dir)], opened := none }) := by
  unfold fs_mkdir
  rw [lookup_absent es _ none hp h, hparent]
  simp

theorem fs_file_open_new (es : List (List CStr × FsEntry)) (path : CStr)
    (hp : split_path path ≠ []) (h : ∀ e ∈ es, e.1 ≠ split_path path)
    (hparent : FsState.lookup { entries := es, opened := none } (split_path path).dropLast =
      some .dir) :
    fs_file_open { entries := es, opened := none } path =
      (0, { entries := es ++ [(split_path path, .file [])],
            opened := some (split_path path, 0) }) := by
  unfold fs_file_open
  rw [lookup_absent es _ none hp h, hparent]
  simp

theorem fs_file_write_new (es : List (List CStr × FsEntry)) (p : List CStr)
    (written : List Byte) (b : Byte) (hp : p ≠ []) (h : ∀ e ∈ es, e.1 ≠ p) :
    fs_file_write { entries := es ++ [(p, .file written)], opened := some (p, written.length) }
        [b] =
      (1, { entries := es ++ [(p, .file (written ++ [b]))],
            opened := some (p, (written ++ [b]).length) }) := by
  unfold fs_file_write
  simp only
  rw [lookup_new es p _ _ hp h]
  simp only [update_new es p _ _ h]
  simp

/-- The copy loop on the reference filesystem appends the bytes of the host file to
the file open at its end. -/
theorem create_file_loop_spec (c : lfs_config) (es : List (List CStr × FsEntry))
    (p : List CStr) (hp : p ≠ []) (h : ∀ e ∈ es, e.1 ≠ p) :
    ∀ (unread written : List Byte) (data : List Byte),
      create_file_loop spec_lfs c unread
        ({ entries := es ++ [(p, .file written)], opened := some (p, written.length) }, data) =
      .ok ({ entries := es ++ [(p, .file (written ++ unread))],
             opened := some (p, (written ++ unread).length) }, data) := by
  intro unread
  induction unread with
  | nil => intro written data; simp [create_file_loop]
  | cons b unread ih =>
    intro written data
    rw [create_file_loop]
    have hcall : lfs_call c (spec_lfs.lfs_file_write
        { entries := es ++ [(p, .file written)], opened := some (p, written.length) }
        [char_byte (b.val : Int)]) data =
        .ok ({ entries := es ++ [(p, .file (written ++ [b]))],
               opened := some (p, (written ++ [b]).length) }, data) := by
      show lfs_call c (.ret (fs_file_write _ _)) data = _
      rw [lfs_call_pure, char_byte_val, fs_file_write_new es p written b hp h]
      simp
    simp only [hcall]
    show create_file_loop spec_lfs c unread _ = _
    rw [ih (written ++ [b]) data]
    simp


theorem create_dir_spec (c : lfs_config) (src d_name : CStr)
    (es : List (List CStr × FsEntry)) (data : List Byte) (hn : legal_name d_name = true)
    (h : ∀ e ∈ es, e.1 ≠ split_path (lfs_path src) ++ [d_name])
    (hparent : FsState.lookup { entries := es, opened := none } (split_path (lfs_path src)) =
      some .dir) :
    create_dir spec_lfs c (curr_path src d_name) ({ entries := es, opened := none }, data) =
      .ok ({ entries := es ++ [(split_path (lfs_path src) ++ [d_name], .dir)],
             opened := none }, data) := by
  unfold create_dir curr_path
  rw [strchr_append_slash]
  show lfs_call c (.ret (fs_mkdir _ _)) data = _
  have hsp := split_path_append_slash (lfs_path src) d_name hn
  rw [lfs_call_pure, fs_mkdir_new es _ (by rw [hsp]; simp) (by rw [hsp]; exact h)
    (by rw [hsp, List.dropLast_concat]; exact hparent), hsp]
  simp

theorem create_file_spec (c : lfs_config) (src d_name : CStr) (content : List Byte)
    (es : List (List CStr × FsEntry)) (data : List Byte) (hn : legal_name d_name = true)
    (h : ∀ e ∈ es, e.1 ≠ split_path (lfs_path src) ++ [d_name])
    (hparent : FsState.lookup { entries := es, opened := none } (split_path (lfs_path src)) =
      some .dir) :
    create_file spec_lfs c (curr_path src d_name) (.reg content)
        ({ entries := es, opened := none }, data) =
      .ok ({ entries := es ++ [(split_path (lfs_path src) ++ [d_name], .file content)],
             opened := none }, data) := by
  unfold create_file curr_path
  rw [strchr_append_slash]
  have hsp := split_path_append_slash (lfs_path src) d_name hn
  have hopen : lfs_call c (spec_lfs.lfs_file_open { entries := es, opened := none }
      (lfs_path src ++ '/' :: d_name)) data =
      .ok ({ entries := es ++ [(split_path (lfs_path src) ++ [d_name], .file [])],
             opened := some (split_path (lfs_path src) ++ [d_name], ([] : List Byte).length) },
           data) := by
    show lfs_call c (.ret (fs_file_open _ _)) data = _
    rw [lfs_call_pure, fs_file_open_new es _ (by rw [hsp]; simp) (by rw [hsp]; exact h)
      (by rw [hsp, List.dropLast_concat]; exact hparent), hsp]
    simp
  simp only [hopen, Node.content]
  have hloop := create_file_loop_spec c es (split_path (lfs_path src) ++ [d_name])
    (by simp) h content [] data
  show (create_file_loop spec_lfs c content _ >>= _) = _
  rw [hloop]
  show lfs_call c (.ret (fs_file_close _)) data = _
  rw [lfs_call_pure]
  simp [fs_file_close]

theorem Entries.listing_keys : ∀ (ents : Entries) (comps : List CStr)
    (e : List CStr × FsEntry), e ∈ ents.listing comps →
    ∃ n t, n ∈ ents.names ∧ e.1 = comps ++ n :: t
  | .nil, comps, e, he => by simp [Entries.listing] at he
  | .cons d_name (.dir sub) rest, comps, e, he => by
    simp only [Entries.listing, List.mem_cons, List.mem_append] at he
    rcases he with he | he | he
    · exact ⟨d_name, [], by simp [Entries.names], by simp [he]⟩
    · obtain ⟨n, t, _, hk⟩ := Entries.listing_keys sub _ e he
      exact ⟨d_name, n :: t, by simp [Entries.names], by simp [hk]⟩
    · obtain ⟨n, t, hn, hk⟩ := Entries.listing_keys rest comps e he
      exact ⟨n, t, by simp [Entries.names, hn], hk⟩
  | .cons d_name (.reg content) rest, comps, e, he => by
    simp only [Entries.listing, List.mem_cons] at he
    rcases he with he | he
    · exact ⟨d_name, [], by simp [Entries.names], by simp [he]⟩
    · obtain ⟨n, t, hn, hk⟩ := Entries.listing_keys rest comps e he
      exact ⟨n, t, by simp [Entries.names, hn], hk⟩
  | .cons d_name .other rest, comps, e, he => by
    simp only [Entries.listing] at he
    obtain ⟨n, t, hn, hk⟩ := Entries.listing_keys rest comps e he
    exact ⟨n, t, by simp [Entries.names, hn], hk⟩

/-- On the reference filesystem `compact` succeeds for a host directory whose own
path exists and below which nothing with the name of one of its entries exists yet,
and adds exactly the listing of the directory. -/
theorem compact_loop_spec (c : lfs_config) :
    ∀ (ents : Entries) (src : CStr) (es : List (List CStr × FsEntry)) (data : List Byte),
      ents.wf = true →
      FsState.lookup { entries := es, opened := none } (split_path (lfs_path src)) =
        some .dir →
      (∀ e ∈ es, ∀ n t, e.1 = split_path (lfs_path src) ++ n :: t → n ∉ ents.names) →
      compact_loop spec_lfs c src ents ({ entries := es, opened := none }, data) =
        .ok ({ entries := es ++ ents.listing (split_path (lfs_path src)), opened := none },
          data)
  | .nil, src, es, data, _, _, _ => by simp [compact_loop, Entries.listing]
  | .cons d_name (.dir sub) rest, src, es, data, hwf, hparent, hfresh => by
    rw [Entries.wf_cons] at hwf
    obtain ⟨hlegal, hnot, hsub, hrest⟩ := hwf
    have hdots := (legal_name_iff d_name).mp hlegal
    have hnokey : ∀ e ∈ es, e.1 ≠ split_path (lfs_path src) ++ [d_name] := by
      intro e he hk
      exact hfresh e he d_name [] hk (by simp [Entries.names])
    rw [compact_loop, if_pos ⟨hdots.2.2.1, hdots.2.2.2⟩]
    simp only [Node.d_type, if_true]
    rw [create_dir_spec c src d_name es data hlegal hnokey hparent]
    show (compact spec_lfs c (curr_path src d_name) (.dir sub) _ >>= _) = _
    have hsp : split_path (lfs_path (curr_path src d_name)) =
        split_path (lfs_path src) ++ [d_name] := by
      rw [lfs_path_curr_path, split_path_append_slash _ _ hlegal]
    have h1 := compact_loop_spec c sub (curr_path src d_name)
      (es ++ [(split_path (lfs_path src) ++ [d_name], .dir)]) data
      (by simpa [Node.wf] using hsub)
      (by rw [hsp]; exact lookup_new es _ _ _ (by simp) hnokey)
      (by
        intro e he n t hk
        rw [hsp] at hk
        simp only [List.mem_append, List.mem_singleton] at he
        rcases he with he | he
        · exact absurd (by simp [Entries.names])
            (hfresh e he d_name (n :: t) (by simp [hk]))
        · rw [he] at hk
          simp at hk)
    rw [compact, h1, hsp]
    show compact_loop spec_lfs c src rest _ = _
    rw [List.append_assoc, compact_loop_spec c rest src _ data hrest
      (lookup_grow es _ _ _ none none hparent)
      (by
        intro e he n t hk
        simp only [List.mem_append, List.mem_singleton] at he
        rcases he with he | he | he
        · intro hn
          exact hfresh e he n t hk (by simp [Entries.names, hn])
        · rw [he] at hk
          simp only [List.append_cancel_left_eq, List.cons.injEq] at hk
          rw [← hk.1]
          exact hnot
        · obtain ⟨m, u, _, hk1⟩ := Entries.listing_keys sub _ e he
          rw [hk1] at hk
          simp only [List.append_assoc, List.singleton_append, List.append_cancel_left_eq,
            List.cons.injEq] at hk
          rw [← hk.1]
          exact hnot)]
    simp [Entries.listing]
  | .cons d_name (.reg content) rest, src, es, data, hwf, hparent, hfresh => by
    rw [Entries.wf_cons] at hwf
    obtain ⟨hlegal, hnot, _, hrest⟩ := hwf
    have hdots := (legal_name_iff d_name).mp hlegal
    have hnokey : ∀ e ∈ es, e.1 ≠ split_path (lfs_path src) ++ [d_name] := by
      intro e he hk
      exact hfresh e he d_name [] hk (by simp [Entries.names])
    rw [compact_loop, if_pos ⟨hdots.2.2.1, hdots.2.2.2⟩]
    simp only [Node.d_type, reduceCtorEq, if_false, if_true]
    rw [create_file_spec c src d_name content es data hlegal hnokey hparent]
    show compact_loop spec_lfs c src rest _ = _
    rw [compact_loop_spec c rest src _ data hrest
      (lookup_grow es _ _ _ none none hparent)
      (by
        intro e he n t hk
        simp only [List.mem_append, List.mem_singleton] at he
        rcases he with he | he
        · intro hn
          exact hfresh e he n t hk (by simp [Entries.names, hn])
        · rw [he] at hk
          simp only [List.append_cancel_left_eq, List.cons.injEq] at hk
          rw [← hk.1]
          exact hnot)]
    simp [Entries.listing]
  | .cons d_name .other rest, src, es, data, hwf, hparent, hfresh => by
    rw [Entries.wf_cons] at hwf
    rw [compact_loop]
    simp only [Node.d_type, reduceCtorEq, if_false, ite_self]
    rw [compact_loop_spec c rest src es data hwf.2.2.2 hparent
      (fun e he n t hk hn => hfresh e he n t hk (by simp [Entries.names, hn]))]
    simp [Entries.listing]


theorem Entries.listing_no_key (ents : Entries) (comps : List CStr) (m : CStr)
    (t : List CStr) (hm : m ∉ ents.names) :
    (ents.listing comps).find? (fun e => decide (e.1 = comps ++ m :: t)) = none := by
  apply find_key_none
  intro e he hk
  obtain ⟨n, u, hn, hk1⟩ := Entries.listing_keys ents comps e he
  rw [hk1] at hk
  simp only [List.append_cancel_left_eq, List.cons.injEq] at hk
  exact hm (hk.1 ▸ hn)

/-- Looking a path up in the listing of a host directory gives what the host tree
holds at that path. -/
theorem Entries.listing_lookup : ∀ (ents : Entries) (comps : List CStr) (m : CStr)
    (t : List CStr), ents.wf = true →
    ((ents.listing comps).find? (fun e => decide (e.1 = comps ++ m :: t))).map Prod.snd =
      ents.lookup m t
  | .nil, comps, m, t, _ => by simp [Entries.listing, Entries.lookup]
  | .cons d_name (.dir sub) rest, comps, m, t, hwf => by
    rw [Entries.wf_cons] at hwf
    obtain ⟨_, hnot, hsub, hrest⟩ := hwf
    rw [Entries.listing, Entries.lookup, List.find?_cons]
    by_cases hnm : d_name = m
    · subst hnm
      rw [if_pos rfl]
      cases t with
      | nil => simp [Node.lookup]
      | cons m2 t2 =>
        have hne : decide (comps ++ [d_name] = comps ++ d_name :: m2 :: t2) = false := by simp
        simp only [hne, List.find?_append, Entries.listing_no_key rest comps d_name _ hnot,
          Option.or_none, Node.lookup]
        have hkey : comps ++ d_name :: m2 :: t2 = (comps ++ [d_name]) ++ m2 :: t2 := by simp
        rw [hkey]
        exact Entries.listing_lookup sub _ m2 t2 (by simpa [Node.wf] using hsub)
    · rw [if_neg hnm]
      have hne : decide (comps ++ [d_name] = comps ++ m :: t) = false := by
        simp only [decide_eq_false_iff_not, List.append_cancel_left_eq, List.cons.injEq,
          not_and]
        intro h
        exact absurd h hnm
      have hsubnone : (sub.listing (comps ++ [d_name])).find?
          (fun e => decide (e.1 = comps ++ m :: t)) = none := by
        apply find_key_none
        intro e he hk
        obtain ⟨n, u, _, hk1⟩ := Entries.listing_keys sub _ e he
        rw [hk1] at hk
        simp only [List.append_assoc, List.singleton_append, List.append_cancel_left_eq,
          List.cons.injEq] at hk
        exact hnm hk.1
      simp only [hne, List.find?_append, hsubnone, Option.none_or]
      exact Entries.listing_lookup rest comps m t hrest
  | .cons d_name (.reg content) rest, comps, m, t, hwf => by
    rw [Entries.wf_cons] at hwf
    obtain ⟨_, hnot, _, hrest⟩ := hwf
    rw [Entries.listing, Entries.lookup, List.find?_cons]
    by_cases hnm : d_name = m
    · subst hnm
      rw [if_pos rfl]
      cases t with
      | nil => simp [Node.lookup]
      | cons m2 t2 =>
        have hne : decide (comps ++ [d_name] = comps ++ d_name :: m2 :: t2) = false := by simp
        simp only [hne, Entries.listing_no_key rest comps d_name _ hnot, Node.lookup]
        rfl
    · rw [if_neg hnm]
      have hne : decide (comps ++ [d_name] = comps ++ m :: t) = false := by
        simp only [decide_eq_false_iff_not, List.append_cancel_left_eq, List.cons.injEq,
          not_and]
        intro h
        exact absurd h hnm
      simp only [hne]
      exact Entries.listing_lookup rest comps m t hrest
  | .cons d_name .other rest, comps, m, t, hwf => by
    rw [Entries.wf_cons] at hwf
    obtain ⟨_, hnot, _, hrest⟩ := hwf
    rw [Entries.listing, Entries.lookup]
    by_cases hnm : d_name = m
    · subst hnm
      rw [if_pos rfl, Entries.listing_no_key rest comps d_name _ hnot]
      simp [Node.lookup]
    · rw [if_neg hnm]
      exact Entries.listing_lookup rest comps m t hrest

end Mklfs
